import Mathlib

/-!
Verification development for the merge-conflict resolution tools of
this repository: `tools/worktree/resolve_cargo_conflict.py` (manifest
`members = [...]` adapter, character/regex based) and
`tools/worktree/resolve_librs_conflict.py` (declaration `pub mod xxx;`
adapter, line based).  Documents are modelled as `List Char`; lines as
`List Char` without `'\n'`.  Python `str.split('\n')` is `splitLines`,
`'\n'.join` is `joinLines`, `re.sub(r'\n{3,}', '\n\n', ·)` is
`collapseNl`.  Each Python regular expression used by the tools is
embedded as a dedicated deterministic matcher that follows the
backtracking order of the Python `re` engine on that concrete pattern
(lazy quantifiers take the first completing occurrence; here failure of
a continuation is monotone in the scan position, so later backtracking
choices cannot rescue an earlier failure and first-occurrence scanning
is exact).
-/

/-- Python `\s` whitespace (ASCII range, as used by the tools). -/
def isPySpace (c : Char) : Bool :=
  c = ' ' || c = '\t' || c = '\n' || c = '\r' || c = Char.ofNat 11 || c = Char.ofNat 12

/-- Python `\w` word character (ASCII range). -/
def isWordChar (c : Char) : Bool :=
  c.isAlphanum || c = '_'

/-- Python `str.strip()` on a line. -/
def pyStrip (l : List Char) : List Char :=
  ((l.dropWhile isPySpace).reverse.dropWhile isPySpace).reverse

/-- Python `s.split('\n')`. -/
def splitLines : List Char → List (List Char)
  | [] => [[]]
  | c :: rest =>
    match splitLines rest with
    | [] => [[c]]
    | l :: ls => if c = '\n' then [] :: l :: ls else (c :: l) :: ls

/-- Python `'\n'.join(ls)`. -/
def joinLines : List (List Char) → List Char
  | [] => []
  | [l] => l
  | l :: ls => l ++ '\n' :: joinLines ls

/-- Helper for `collapseNl`: `k` counts the pending run of newlines. -/
def collapseAux : Nat → List Char → List Char
  | k, [] => List.replicate (min k 2) '\n'
  | k, c :: rest =>
    if c = '\n' then collapseAux (k + 1) rest
    else List.replicate (min k 2) '\n' ++ c :: collapseAux 0 rest

/-- Python `re.sub(r'\n{3,}', '\n\n', s)`: every maximal run of three or
more newlines becomes exactly two newlines. -/
def collapseNl (s : List Char) : List Char :=
  collapseAux 0 s

/-- Python `pat in s` (substring containment). -/
def hasSub (p : List Char) : List Char → Bool
  | [] => p.isEmpty
  | c :: r => p.isPrefixOf (c :: r) || hasSub p r

/-- Python string `<=` (lexicographic by code point). -/
def lexLe : List Char → List Char → Bool
  | [], _ => true
  | _ :: _, [] => false
  | a :: as', b :: bs' =>
    if a.toNat < b.toNat then true
    else if b.toNat < a.toNat then false
    else lexLe as' bs'

/-- Insert into a sorted list, before the first element it is `le` to:
the stable insertion used to model Python's stable `sorted`. -/
def insSorted (le : List Char → List Char → Bool) (x : List Char) :
    List (List Char) → List (List Char)
  | [] => [x]
  | y :: ys => if le x y then x :: y :: ys else y :: insSorted le x ys

/-- Stable insertion sort modelling Python `sorted(·, key=...)`. -/
def isortBy (le : List Char → List Char → Bool) :
    List (List Char) → List (List Char)
  | [] => []
  | x :: xs => insSorted le x (isortBy le xs)

/-- Python `set.add`, with the set modelled as a duplicate-free list in
first-insertion order (iteration order of a CPython `set` is
unspecified; no settled claim depends on the tie order it induces). -/
def setInsert (x : List Char) (l : List (List Char)) : List (List Char) :=
  if x ∈ l then l else l ++ [x]

/-- Python `set.update`. -/
def setUnionL (l add : List (List Char)) : List (List Char) :=
  add.foldl (fun acc x => setInsert x acc) l

/-- Conflict start-marker prefix `"<<<<<<< "`. -/
def startMk : List Char := ("<<<<<<< ").toList

/-- Conflict separator prefix `"======="`. -/
def sepMk : List Char := ("=======").toList

/-- Conflict end-marker prefix `">>>>>>> "`. -/
def endMk : List Char := (">>>>>>> ").toList

/-- Messages the two command line tools print, in print order. -/
inductive Msg where
  | notFound
  | noMarkers
  | warnNoMembers
  | resolvedMsg
  | mergedCount (n : Nat)
  | mergedItem (s : List Char)
deriving DecidableEq

/-- Outcome of one run of a tool on one file: the text written back (if
any), the boolean the resolver returns, and the messages printed. -/
structure RunResult where
  wrote : Option (List Char)
  ok : Bool
  msgs : List Msg
deriving DecidableEq

/-! ## Model of `resolve_librs_conflict.py` -/

/-- Take a nonempty maximal run of characters satisfying `p` (regex
`X+` for a character class `X`, followed by a distinguishable literal). -/
def takeWhile1 (p : Char → Bool) (s : List Char) :
    Option (List Char × List Char) :=
  let t := s.takeWhile p
  if t.isEmpty then none else some (t, s.dropWhile p)

/-- Expect character `t` at the head; on success return the tail. -/
def expectChar (t : Char) : List Char → Option (List Char)
  | [] => none
  | c :: r => if c = t then some r else none

/-- The optional `(?:\([^)]+\))?` group of the declaration pattern: on
a leading parenthesis commit to a well-formed qualifier (the regex
fallback to the empty group cannot be followed by `\s+`). -/
def parenGrab : List Char → Option (List Char × List Char)
  | '(' :: t =>
    match takeWhile1 (fun c => !(c = ')')) t with
    | none => none
    | some (inner, rest) =>
      match rest with
      | ')' :: rest' => some ('(' :: inner ++ [')'], rest')
      | _ => none
  | r => some ([], r)

/-- Embedding of `re.match(r'^(pub(?:\([^)]+\))?\s+mod\s+\w+\s*;)', s)`:
returns the captured group 1 (the whole matched declaration through the
semicolon) when the anchored match succeeds. -/
def pubModMatch (s : List Char) : Option (List Char) :=
  if ("pub").toList.isPrefixOf s then
    match parenGrab (s.drop 3) with
    | none => none
    | some (pg, r2) =>
      match takeWhile1 isPySpace r2 with
      | none => none
      | some (w1, r3) =>
        if ("mod").toList.isPrefixOf r3 then
          match takeWhile1 isPySpace (r3.drop 3) with
          | none => none
          | some (w2, r5) =>
            match takeWhile1 isWordChar r5 with
            | none => none
            | some (nm, r6) =>
              let w3 := r6.takeWhile isPySpace
              match expectChar ';' (r6.dropWhile isPySpace) with
              | some _ =>
                some (("pub").toList ++ pg ++ w1 ++
                      ("mod").toList ++ w2 ++ nm ++ w3 ++ [';'])
              | none => none
        else none
  else none

/-- One scan step of `re.search(r'mod\s+(\w+)', d)`: anchored attempt. -/
def modNameAt (s : List Char) : Option (List Char) :=
  match s with
  | 'm' :: 'o' :: 'd' :: r1 =>
    match takeWhile1 isPySpace r1 with
    | none => none
    | some (_, r2) =>
      match takeWhile1 isWordChar r2 with
      | none => none
      | some (nm, _) => some nm
  | _ => none

/-- Leftmost occurrence scan of `re.search(r'mod\s+(\w+)', d)`. -/
def modNameScan : List Char → Option (List Char)
  | [] => none
  | c :: r =>
    match modNameAt (c :: r) with
    | some nm => some nm
    | none => modNameScan r

/-- Embedding of `extract_mod_name`: first `mod\s+(\w+)` group, or the
whole declaration when there is no match. -/
def extract_mod_name (d : List Char) : List Char :=
  (modNameScan d).getD d

/-- Embedding of `extract_pub_mods`: per line of the block, strip and
match the anchored declaration pattern, collecting group 1 into a set. -/
def extract_pub_mods (block : List Char) : List (List Char) :=
  (splitLines block).foldl
    (fun acc line =>
      match pubModMatch (pyStrip line) with
      | some g => setInsert g acc
      | none => acc)
    []

/-- State of the line scanning loop of `resolve_librs_conflict`. -/
structure MState where
  resolved : List (List Char)
  mods : List (List Char)
  inConflict : Bool
  sect : List Char
  insPt : Option Nat
deriving DecidableEq

/-- Initial state of the scanning loop. -/
def mInit : MState := ⟨[], [], false, [], none⟩

/-- One iteration of the `while i < len(lines)` loop of
`resolve_librs_conflict`, for the line `line`. -/
def stepLine (st : MState) (line : List Char) : MState :=
  if startMk.isPrefixOf line then
    { st with inConflict := true, sect := [] }
  else if sepMk.isPrefixOf line then
    { st with mods := setUnionL st.mods (extract_pub_mods st.sect), sect := [] }
  else if endMk.isPrefixOf line then
    { st with mods := setUnionL st.mods (extract_pub_mods st.sect),
              inConflict := false, sect := [],
              insPt := some (st.insPt.getD st.resolved.length) }
  else if st.inConflict then
    { st with sect := st.sect ++ line ++ ['\n'] }
  else
    let strp := pyStrip line
    if (pubModMatch strp).isSome then
      { st with mods := setInsert strp st.mods,
                insPt := some (st.insPt.getD st.resolved.length) }
    else
      { st with resolved := st.resolved ++ [line] }

/-- Sort key comparison used by `sorted(all_pub_mods, key=extract_mod_name)`. -/
def modKeyLe (a b : List Char) : Bool :=
  lexLe (extract_mod_name a) (extract_mod_name b)

/-- The fallback insertion-point search of `resolve_librs_conflict`
(after `use` statements, before the first other code line). -/
def findUseInsert (insertAt idx : Nat) : List (List Char) → Nat
  | [] => insertAt
  | l :: rest =>
    let s := pyStrip l
    if ("use ").toList.isPrefixOf s then findUseInsert (idx + 1) (idx + 1) rest
    else if !s.isEmpty && !(("//").toList.isPrefixOf s) &&
            !(("#").toList.isPrefixOf s) then insertAt
    else findUseInsert insertAt (idx + 1) rest

/-- Sequential `list.insert(p + j, block[j])` for all `j`. -/
def insertBlockAt (p : Nat) (block ls : List (List Char)) : List (List Char) :=
  ls.take p ++ block ++ ls.drop p

/-- Whether a string ends with a newline (`str.endswith('\n')`). -/
def endsWithNl (s : List Char) : Bool :=
  s.getLast? = some '\n'

/-- The final loop state of `resolve_librs_conflict` on a content. -/
def librsState (content : List Char) : MState :=
  (splitLines content).foldl stepLine mInit

/-- The value of `sorted_mods` in `resolve_librs_conflict`. -/
def librsSortedMods (content : List Char) : List (List Char) :=
  isortBy modKeyLe (librsState content).mods

/-- The value of `resolved_lines` after the insertion phase. -/
def librsResolvedLines (content : List Char) : List (List Char) :=
  if (librsSortedMods content).isEmpty then (librsState content).resolved
  else
    match (librsState content).insPt with
    | some p =>
      insertBlockAt p (librsSortedMods content) (librsState content).resolved
    | none =>
      insertBlockAt (findUseInsert 0 0 (librsState content).resolved)
        (librsSortedMods content) (librsState content).resolved

/-- The text `resolve_librs_conflict` writes back once markers were
found: joined lines, blank runs collapsed, trailing newline ensured. -/
def librsFinalText (content : List Char) : List Char :=
  if endsWithNl (collapseNl (joinLines (librsResolvedLines content))) then
    collapseNl (joinLines (librsResolvedLines content))
  else collapseNl (joinLines (librsResolvedLines content)) ++ ['\n']

/-- Embedding of `resolve_librs_conflict`, with the file system
abstracted to the existence flag and the file's text. -/
def resolve_librs_conflict (exists_ : Bool) (content : List Char) : RunResult :=
  if !exists_ then ⟨none, false, [.notFound]⟩
  else if !(hasSub startMk content) then ⟨none, true, [.noMarkers]⟩
  else
    let sortedMods := librsSortedMods content
    ⟨some (librsFinalText content), true,
      .resolvedMsg ::
        (if sortedMods.isEmpty then []
         else .mergedCount sortedMods.length ::
              sortedMods.map (fun m => .mergedItem (extract_mod_name m)))⟩

/-- Exit code of `main()` in `resolve_librs_conflict.py`. -/
def librsExit (exists_ : Bool) (content : List Char) : Nat :=
  if (resolve_librs_conflict exists_ content).ok then 0 else 1

/-! ## Model of `resolve_cargo_conflict.py`

All the regular expressions of this tool use `re.DOTALL`; `.` matches
newlines.  Marker literals there have no line anchor, so they can in
principle match mid-line; the matchers below scan character by
character exactly as the `re` engine does. -/

/-- Start marker literal `<<<<<<<` as used by the cargo regexes. -/
def startMk7 : List Char := ("<<<<<<<").toList

/-- End marker literal `>>>>>>>` as used by the cargo regexes. -/
def endMk7 : List Char := (">>>>>>>").toList

/-- Separator-plus-newline literal `=======\n` of the cargo regexes. -/
def sepNl : List Char := ("=======\n").toList

/-- Split at the first occurrence of character `t`:
`some (before, after)` with the input `= before ++ t :: after`. -/
def splitAtChar? (t : Char) : List Char → Option (List Char × List Char)
  | [] => none
  | c :: r =>
    if c = t then some ([], r)
    else
      match splitAtChar? t r with
      | some (pre, post) => some (c :: pre, post)
      | none => none

/-- Split at the first occurrence of the pattern `pat`:
`some (before, after)` with the input `= before ++ pat ++ after`. -/
def splitAtSub? (pat : List Char) : List Char → Option (List Char × List Char)
  | [] => if pat.isEmpty then some ([], []) else none
  | c :: r =>
    if pat.isPrefixOf (c :: r) then some ([], (c :: r).drop pat.length)
    else
      match splitAtSub? pat r with
      | some (pre, post) => some (c :: pre, post)
      | none => none

/-- Regex tail `[^\n]*\n?`: skip to the end of the current line and
consume the newline when there is one. -/
def findEndRest (s : List Char) : List Char :=
  match s.dropWhile (fun c => !(c = '\n')) with
  | _ :: r => r
  | [] => []

/-- Anchored attempt of `members\s*=\s*\[(.*?)\]` (DOTALL): on success,
the lazily captured bracket content and the text after the closing
bracket. -/
def parseMembersAt (s : List Char) : Option (List Char × List Char) :=
  if ("members").toList.isPrefixOf s then
    match expectChar '=' ((s.drop 7).dropWhile isPySpace) with
    | none => none
    | some r2 =>
      match expectChar '[' (r2.dropWhile isPySpace) with
      | none => none
      | some r3 => splitAtChar? ']' r3
  else none

/-- Leftmost match of `members\s*=\s*\[(.*?)\]`, capture only
(`re.search` in `extract_members_from_block`). -/
def searchMembers : List Char → Option (List Char)
  | [] => none
  | c :: r =>
    match parseMembersAt (c :: r) with
    | some (content, _) => some content
    | none => searchMembers r

/-- Leftmost match of `members\s*=\s*\[.*?\]`, rest after the match. -/
def searchMembersRest : List Char → Option (List Char)
  | [] => none
  | c :: r =>
    match parseMembersAt (c :: r) with
    | some (_, rest) => some rest
    | none => searchMembersRest r

/-- Scanner for `re.finditer(r'"([^"]+)"', content)`: the state is
`none` outside a candidate quoted literal and `some acc` after an
opening quote, `acc` holding the reversed content so far. -/
def quotedGo : Option (List Char) → List Char → List (List Char)
  | _, [] => []
  | none, c :: r => if c = '"' then quotedGo (some []) r else quotedGo none r
  | some acc, c :: r =>
    if c = '"' then
      if acc.isEmpty then quotedGo (some []) r
      else acc.reverse :: quotedGo none r
    else quotedGo (some (c :: acc)) r

/-- Embedding of `extract_members_from_block`: quoted strings of the
first `members = [...]` literal of the block, as a set. -/
def extract_members_from_block (block : List Char) : List (List Char) :=
  match searchMembers block with
  | some content => (quotedGo none content).foldl (fun acc m => setInsert m acc) []
  | none => []

/-- Body scan of `<<<<<<<[^\n]*\n(.*?)(?:=======\n(.*?))?>>>>>>>[^\n]*\n?`
after the start-marker line: the lazy group grows until the first
position carrying either the separator branch (preferred by the greedy
optional group, and committing to the first end marker after it) or a
bare end marker.  `acc` holds the reversed "ours" text so far. -/
def scanOurs (acc : List Char) : List Char →
    Option (List Char × Option (List Char) × List Char)
  | [] => none
  | c :: r =>
    if sepNl.isPrefixOf (c :: r) then
      match splitAtSub? endMk7 ((c :: r).drop 8) with
      | some (th, after) => some (acc.reverse, some th, findEndRest after)
      | none => none
    else if endMk7.isPrefixOf (c :: r) then
      some (acc.reverse, none, findEndRest ((c :: r).drop 7))
    else scanOurs (c :: acc) r

/-- Anchored attempt of the conflict-block pattern used by
`re.finditer`/`re.sub` for extraction and `clean_content`:
`<<<<<<<[^\n]*\n(.*?)(?:=======\n(.*?))?>>>>>>>[^\n]*\n?`. -/
def matchConflictAt (s : List Char) :
    Option (List Char × Option (List Char) × List Char) :=
  if startMk7.isPrefixOf s then
    match expectChar '\n' ((s.drop 7).dropWhile (fun c => !(c = '\n'))) with
    | some r' => scanOurs [] r'
    | none => none
  else none

/-- Fuel-indexed scan for `conflictScan`; every step consumes at least
one character (`matchConflictAt_rest_lt`), so fuel `length + 1` is
never exhausted and the fuel only serves structural recursion. -/
def conflictScanF : Nat → List Char →
    List (List Char × Option (List Char)) × List Char
  | 0, _ => ([], [])
  | _, [] => ([], [])
  | fuel + 1, c :: r =>
    match matchConflictAt (c :: r) with
    | some (o, th, rest) =>
      let p := conflictScanF fuel rest
      ((o, th) :: p.1, p.2)
    | none =>
      let p := conflictScanF fuel r
      (p.1, c :: p.2)

/-- Deletion/extraction scan of the conflict-block pattern: the list of
`(ours, theirs?)` groups of every non-overlapping leftmost match, and
the text with every match replaced by the empty string (this residue is
`clean_content`). -/
def conflictScan (s : List Char) :
    List (List Char × Option (List Char)) × List Char :=
  conflictScanF (s.length + 1) s

/-- The `(?:.*?members\s*=\s*\[.*?\].*?)?>>>>>>>`" part of the
members-conflict pattern, applied to the text `v` after the separator
line: the greedy optional group is tried first (first members literal,
first closing bracket, first end marker after it — failures here are
monotone in the scan position, so no other backtracking choice can
succeed when these fail); otherwise the end marker must stand at `v`
itself.  Returns the text after the whole match. -/
def tryG2 (v : List Char) : Option (List Char) :=
  match (match searchMembersRest v with
         | some rest1 =>
           match splitAtSub? endMk7 rest1 with
           | some (_, r2) => some (findEndRest r2)
           | none => none
         | none => none : Option (List Char)) with
  | some r => some r
  | none =>
    if endMk7.isPrefixOf v then some (findEndRest (v.drop 7)) else none

/-- Scan for `=======\n` positions, trying the continuation `tryG2` at
each (the lazy `.*?` before `=======\n` together with full
backtracking over later separator candidates). -/
def trySeps : List Char → Option (List Char)
  | [] => none
  | c :: r =>
    if sepNl.isPrefixOf (c :: r) then
      match tryG2 ((c :: r).drop 8) with
      | some rest => some rest
      | none => trySeps r
    else trySeps r

/-- The `(?:.*?members\s*=\s*\[.*?\].*?)?=======\n` part of the
members-conflict pattern after the start-marker line: prefer the group
present (first members literal, then any later separator that lets the
rest match), else require `=======\n` immediately. -/
def tryG1 (p : List Char) : Option (List Char) :=
  match (match searchMembersRest p with
         | some rest1 => trySeps rest1
         | none => none : Option (List Char)) with
  | some r => some r
  | none => if sepNl.isPrefixOf p then tryG2 (p.drop 8) else none

/-- Anchored attempt of the full members-conflict pattern
`<<<<<<<[^\n]*\n(?:.*?members\s*=\s*\[.*?\].*?)?=======\n(?:.*?members\s*=\s*\[.*?\].*?)?>>>>>>>[^\n]*\n?`
(the pattern `re.sub`ed to the empty string first). -/
def matchMembersConfAt (s : List Char) : Option (List Char) :=
  if startMk7.isPrefixOf s then
    match expectChar '\n' ((s.drop 7).dropWhile (fun c => !(c = '\n'))) with
    | some r' => tryG1 r'
    | none => none
  else none

/-- Fuel-indexed core of `membersConfSubAll`; every step consumes at
least one character (`matchMembersConfAt_rest_lt`). -/
def membersConfSubF : Nat → List Char → List Char
  | 0, _ => []
  | _, [] => []
  | fuel + 1, c :: r =>
    match matchMembersConfAt (c :: r) with
    | some rest => membersConfSubF fuel rest
    | none => c :: membersConfSubF fuel r

/-- The first `re.sub` of the rewriting phase: every members-conflict
match replaced by the empty string. -/
def membersConfSubAll (s : List Char) : List Char :=
  membersConfSubF (s.length + 1) s

/-- Anchored attempt of the generic-conflict pattern
`<<<<<<<[^\n]*\n(.*?)=======\n.*?>>>>>>>[^\n]*\n?`: ours is everything
before the first `=======\n`, and the first end marker after it ends
the match. -/
def matchGenericAt (s : List Char) : Option (List Char × List Char) :=
  if startMk7.isPrefixOf s then
    match expectChar '\n' ((s.drop 7).dropWhile (fun c => !(c = '\n'))) with
    | some r' =>
      match splitAtSub? sepNl r' with
      | some (ours, afterSep) =>
        match splitAtSub? endMk7 afterSep with
        | some (_, r2) => some (ours, findEndRest r2)
        | none => none
      | none => none
    | none => none
  else none

/-- Fuel-indexed core of `genericSubAll`; every step consumes at least
one character (`matchGenericAt_rest_lt`). -/
def genericSubF : Nat → List Char → List Char
  | 0, _ => []
  | _, [] => []
  | fuel + 1, c :: r =>
    match matchGenericAt (c :: r) with
    | some (ours, rest) => ours ++ genericSubF fuel rest
    | none => c :: genericSubF fuel r

/-- The second `re.sub` of the rewriting phase: every remaining generic
conflict replaced by its "ours" group. -/
def genericSubAll (s : List Char) : List Char :=
  genericSubF (s.length + 1) s

/-- Anchored attempt of `members\s*=\s*\[` (the existence check
`re.search(r'members\s*=\s*\[', resolved)`). -/
def parseMembersOpenAt (s : List Char) : Bool :=
  if ("members").toList.isPrefixOf s then
    match expectChar '=' ((s.drop 7).dropWhile isPySpace) with
    | none => false
    | some r2 =>
      match expectChar '[' (r2.dropWhile isPySpace) with
      | none => false
      | some _ => true
  else false

/-- Leftmost-scan existence of a `members\s*=\s*\[` match. -/
def searchMembersOpen : List Char → Bool
  | [] => false
  | c :: r => parseMembersOpenAt (c :: r) || searchMembersOpen r

/-- Fuel-indexed core of `membersSubAll`; every match consumes at
least nine characters (`parseMembersAt_rest_lt`). -/
def membersSubF (repl : List Char) : Nat → List Char → List Char
  | 0, _ => []
  | _, [] => []
  | fuel + 1, c :: r =>
    match parseMembersAt (c :: r) with
    | some (_, rest) => repl ++ membersSubF repl fuel rest
    | none => c :: membersSubF repl fuel r

/-- The in-place replacement
`re.sub(r'members\s*=\s*\[.*?\]', new_members_block, resolved)`:
every non-overlapping leftmost match replaced by `repl`. -/
def membersSubAll (repl s : List Char) : List Char :=
  membersSubF repl (s.length + 1) s

/-- Fuel-indexed core of `workspaceSubAll`; every match consumes the
eleven characters of the literal. -/
def workspaceSubF (block : List Char) : Nat → List Char → List Char
  | 0, _ => []
  | _, [] => []
  | fuel + 1, c :: r =>
    if ("[workspace]").toList.isPrefixOf (c :: r) then
      ("[workspace]").toList ++ '\n' :: block ++ workspaceSubF block fuel (r.drop 10)
    else c :: workspaceSubF block fuel r

/-- The anchor insertion
`re.sub(r'(\[workspace\])', '\\1\n' + new_members_block, resolved)`:
every literal `[workspace]` occurrence is kept and followed by a
newline and the merged block. -/
def workspaceSubAll (block s : List Char) : List Char :=
  workspaceSubF block (s.length + 1) s

/-- Rendering of the merged `members` block
(`f"members = [\n    {members_str},\n]"`). -/
def renderMembersBlock (ms : List (List Char)) : List Char :=
  ("members = [\n    ").toList ++
  List.intercalate ((",\n    ").toList)
    (ms.map (fun m => '"' :: m ++ ['"'])) ++
  ((",\n]").toList)

/-- The value of `all_members` in `resolve_cargo_conflict`: members of
every conflict side (in match order, ours before theirs), then members
of the conflict-free residue. -/
def cargoAllMembers (content : List Char) : List (List Char) :=
  let scan := conflictScan content
  let allM0 := scan.1.foldl
    (fun acc ot =>
      setUnionL (setUnionL acc (extract_members_from_block ot.1))
                (extract_members_from_block (ot.2.getD [])))
    []
  setUnionL allM0 (extract_members_from_block scan.2)

/-- The value of `sorted_members` in `resolve_cargo_conflict`. -/
def cargoSortedMembers (content : List Char) : List (List Char) :=
  isortBy lexLe (cargoAllMembers content)

/-- The value of `new_members_block` in `resolve_cargo_conflict`. -/
def cargoNewBlock (content : List Char) : List Char :=
  if (cargoSortedMembers content).isEmpty then ("members = []").toList
  else renderMembersBlock (cargoSortedMembers content)

/-- The text `resolve_cargo_conflict` writes back once markers were
found: members-conflict removal, generic keep-ours substitution,
members-block replacement or `[workspace]` insertion, blank collapse. -/
def cargoResolvedText (content : List Char) : List Char :=
  collapseNl
    (if searchMembersOpen (genericSubAll (membersConfSubAll content)) then
      membersSubAll (cargoNewBlock content)
        (genericSubAll (membersConfSubAll content))
    else if hasSub (("[workspace]").toList)
            (genericSubAll (membersConfSubAll content)) &&
          !(cargoSortedMembers content).isEmpty then
      workspaceSubAll (cargoNewBlock content)
        (genericSubAll (membersConfSubAll content))
    else genericSubAll (membersConfSubAll content))

/-- Embedding of `resolve_cargo_conflict`, with the file system
abstracted to the existence flag and the file's text. -/
def resolve_cargo_conflict (exists_ : Bool) (content : List Char) : RunResult :=
  if !exists_ then ⟨none, false, [.notFound]⟩
  else if !(hasSub startMk content) then ⟨none, true, [.noMarkers]⟩
  else
    let sortedM := cargoSortedMembers content
    ⟨some (cargoResolvedText content), true,
      (if (cargoAllMembers content).isEmpty then [Msg.warnNoMembers] else []) ++
      Msg.resolvedMsg ::
        (if sortedM.isEmpty then []
         else Msg.mergedCount sortedM.length :: sortedM.map Msg.mergedItem)⟩

/-- Exit code of `main()` in `resolve_cargo_conflict.py`. -/
def cargoExit (exists_ : Bool) (content : List Char) : Nat :=
  if (resolve_cargo_conflict exists_ content).ok then 0 else 1


/-! ## Structured documents

To settle the universally quantified claims about the declaration tool
the input is presented as a list of segments: ordinary lines outside
every conflict region, and whole conflict regions (start-marker line,
"ours" lines, separator, "theirs" lines, end-marker line).  A
well-formedness predicate states that the inner lines are newline-free
and do not themselves begin with a marker prefix, which is exactly the
class of documents on which the scanner of §4.1 of the specification
and the tool's line loop agree on where the regions are. -/

/-- One segment of a structured document: a line outside every
conflict, or a full conflict region with separator. -/
inductive LSeg where
  | out (l : List Char)
  | conf (a : List Char) (ours theirs : List (List Char)) (b : List Char)
deriving DecidableEq

/-- The lines a segment contributes to the document. -/
def renderSeg : LSeg → List (List Char)
  | .out l => [l]
  | .conf a ours theirs b =>
    (startMk ++ a) :: ours ++ [sepMk] ++ theirs ++ [endMk ++ b]

/-- All lines of a structured document. -/
def docLines (segs : List LSeg) : List (List Char) :=
  (segs.map renderSeg).flatten

/-- A well-behaved document line: newline-free and not starting with
any conflict-marker prefix. -/
def lineOk (l : List Char) : Prop :=
  '\n' ∉ l ∧ startMk.isPrefixOf l = false ∧ sepMk.isPrefixOf l = false ∧
    endMk.isPrefixOf l = false

instance (l : List Char) : Decidable (lineOk l) := by
  unfold lineOk
  infer_instance

/-- Well-formedness of a segment. -/
def segOk : LSeg → Prop
  | .out l => lineOk l
  | .conf a ours theirs b =>
    '\n' ∉ a ∧ '\n' ∉ b ∧ (∀ l ∈ ours, lineOk l) ∧ (∀ l ∈ theirs, lineOk l)

instance (sg : LSeg) : Decidable (segOk sg) := by
  cases sg <;> (unfold segOk; infer_instance)

/-- The text of one conflict side exactly as `conflict_section`
accumulates it: each line followed by a newline. -/
def sideText (ls : List (List Char)) : List Char :=
  (ls.map (fun l => l ++ ['\n'])).flatten

/-- The effect of one whole segment on the loop state (proved equal to
folding `stepLine` over the segment's rendered lines). -/
def stepSeg (st : MState) : LSeg → MState
  | .out l =>
    if (pubModMatch (pyStrip l)).isSome then
      { st with mods := setInsert (pyStrip l) st.mods,
                insPt := some (st.insPt.getD st.resolved.length) }
    else { st with resolved := st.resolved ++ [l] }
  | .conf _ ours theirs _ =>
    { st with mods := setUnionL (setUnionL st.mods
                        (extract_pub_mods (sideText ours)))
                        (extract_pub_mods (sideText theirs)),
              inConflict := false, sect := [],
              insPt := some (st.insPt.getD st.resolved.length) }

/-- Segment-level loop state of a structured document. -/
def segState (segs : List LSeg) : MState :=
  segs.foldl stepSeg mInit

/-- The outside lines the loop keeps: lines of `out` segments that do
not match the declaration pattern (those that match are collected into
the merged set instead). -/
def keptOut (segs : List LSeg) : List (List Char) :=
  segs.foldr
    (fun sg acc =>
      match sg with
      | .out l => if (pubModMatch (pyStrip l)).isSome then acc else l :: acc
      | .conf _ _ _ _ => acc)
    []

/-- All outside lines of a structured document. -/
def outLines (segs : List LSeg) : List (List Char) :=
  segs.foldr
    (fun sg acc =>
      match sg with
      | .out l => l :: acc
      | .conf _ _ _ _ => acc)
    []

/-- The non-blank lines of a line list. -/
def nonBlank (ls : List (List Char)) : List (List Char) :=
  ls.filter (fun l => !l.isEmpty)

/-! ## Concrete documents used by the claim theorems -/

/-- A document whose only conflict carries a members entry on the
"ours" side, with empty "theirs", and no other anchor in the file. -/
def claim1Doc : List Char :=
  ("<<<<<<< a\nmembers = [\"x\"]\n=======\n>>>>>>> b\n").toList

/-- A document whose conflict region has no separator line. -/
def claim2Doc : List Char := ("<<<<<<< a\nX\n>>>>>>> b\n").toList

/-- A document with one generic conflict (no list construct on either
side) followed by ordinary code. -/
def claim3Doc : List Char :=
  ("<<<<<<< a\nGENERIC\n=======\nother\n>>>>>>> b\nfn x\n").toList

/-- A document with no conflict-marker line but with the start-marker
substring in the middle of a line. -/
def claim4Doc : List Char := ("foo <<<<<<< bar\nmembers = [\"a\"]\n").toList

/-- A document with a stray separator line before any conflict. -/
def claim5Doc : List Char :=
  ("x\n=======\ny\n<<<<<<< a\n=======\n>>>>>>> b\n").toList

/-- A document with markers but no extractable entries for either tool. -/
def claim7Doc : List Char := ("<<<<<<< a\nG\n=======\nH\n>>>>>>> b\n").toList

/-- A document whose conflict ends the file without a trailing newline. -/
def claim8Doc : List Char := ("<<<<<<< a\n=======\n>>>>>>> b\nx").toList

/-- A text block containing two members list literals. -/
def claim9Block : List Char :=
  ("members = [\"a\"]\nmembers = [\"b\"]").toList

/-- A structured document used by the C1 witness: one outside line, one
conflict carrying declarations on both sides, one trailing code line. -/
def claim1Segs : List LSeg :=
  [LSeg.out (("use a;").toList),
   LSeg.conf (("x").toList) [("pub mod zeta;").toList]
     [("pub mod alpha;").toList] (("y").toList),
   LSeg.out (("fn f").toList)]

/-- The structured document used by the C2 witness. -/
def claim2Segs : List LSeg :=
  [LSeg.out (("use a;").toList),
   LSeg.conf (("x").toList) [("pub mod zeta;").toList]
     [("pub mod alpha;").toList] (("y").toList),
   LSeg.out (("fn f").toList)]

/-- The structured document used by the C3 witness. -/
def claim3Segs : List LSeg :=
  [LSeg.out (("use a;").toList),
   LSeg.conf (("x").toList) [("GENERIC").toList] [("other").toList]
     (("y").toList),
   LSeg.out (("fn f").toList)]

/-- A block holding two single-entry members literals in sequence. -/
def twoLits (a b : Char) : List Char :=
  ("members = [\"").toList ++ a :: ("\"]\nmembers = [\"").toList ++
    b :: ("\"]").toList

/-- A block holding one single-entry members literal. -/
def oneLit (b : Char) : List Char :=
  ("members = [\"").toList ++ b :: ("\"]").toList

/-- The structured document used by the C5 witness. -/
def claim5Segs : List LSeg :=
  [LSeg.out (("use a;").toList),
   LSeg.conf (("x").toList) [("pub mod zeta;").toList] [("other").toList]
     (("y").toList),
   LSeg.out (("fn f").toList)]

/-- The "ours" side text of the conflict of `doc10`. -/
def c10Ours (x : Char) : List Char :=
  ("members = [\"").toList ++ x :: ("\"]\n").toList

/-- The conflict-free residue of `doc10`: two members literals outside
any conflict region. -/
def c10Clean (y z : Char) : List Char :=
  ("members = [\"").toList ++ y :: ("\"]\nmembers = [\"").toList ++
    z :: ("\"]\n").toList

/-- A document with one members conflict (entry `x` on "ours", empty
"theirs") followed by two members literals that belong to no conflict
region. -/
def doc10 (x y z : Char) : List Char :=
  ("<<<<<<< a\n").toList ++ c10Ours x ++ ("=======\n>>>>>>> b\n").toList ++
    c10Clean y z

/-- Characters that the scanners treat as ordinary text: not a newline,
not a marker or separator head, not the head of `members`, not a quote
or closing bracket. -/
def plainChars : List Char := ['\n', '=', '>', '<', 'm', '"', ']']

/-! ## Groundwork lemmas

Suffix and length facts for the scanners: every anchored match
consumes at least one character, so the fuel `length + 1` given to the
fuel-indexed scanners is never exhausted. -/

theorem splitAtChar?_eq {t : Char} {s pre post : List Char}
    (h : splitAtChar? t s = some (pre, post)) : s = pre ++ t :: post := by
  induction s generalizing pre post with
  | nil => simp [splitAtChar?] at h
  | cons c r ih =>
    by_cases hc : c = t
    · simp [splitAtChar?, hc] at h
      obtain ⟨h1, h2⟩ := h
      subst h1; subst h2; simp [hc]
    · simp only [splitAtChar?, if_neg hc] at h
      cases hr : splitAtChar? t r with
      | none => rw [hr] at h; simp at h
      | some pp =>
        rw [hr] at h
        obtain ⟨pre', post'⟩ := pp
        simp at h
        obtain ⟨h1, h2⟩ := h
        subst h1; subst h2
        simp [ih hr]

theorem splitAtSub?_eq {pat s pre post : List Char} (hpat : pat ≠ [])
    (h : splitAtSub? pat s = some (pre, post)) : s = pre ++ pat ++ post := by
  induction s generalizing pre post with
  | nil => simp [splitAtSub?, List.isEmpty_iff, hpat] at h
  | cons c r ih =>
    by_cases hp : pat.isPrefixOf (c :: r)
    · simp only [splitAtSub?, if_pos hp] at h
      have hpre : pat <+: (c :: r) := by
        exact List.isPrefixOf_iff_prefix.mp hp
      obtain ⟨t, ht⟩ := hpre
      have hdrop : (c :: r).drop pat.length = t := by
        rw [← ht]; simp
      rw [hdrop] at h
      simp at h
      obtain ⟨h1, h2⟩ := h
      subst h1; subst h2
      simp [← ht]
    · simp only [splitAtSub?, if_neg hp] at h
      cases hr : splitAtSub? pat r with
      | none => rw [hr] at h; simp at h
      | some pp =>
        rw [hr] at h
        obtain ⟨pre', post'⟩ := pp
        simp at h
        obtain ⟨h1, h2⟩ := h
        subst h1; subst h2
        simp [ih hr]

theorem splitAtChar?_post_lt {t : Char} {s pre post : List Char}
    (h : splitAtChar? t s = some (pre, post)) : post.length < s.length := by
  have := splitAtChar?_eq h
  subst this
  simp
  omega

theorem splitAtSub?_post_le {pat s pre post : List Char} (hpat : pat ≠ [])
    (h : splitAtSub? pat s = some (pre, post)) :
    post.length + 1 ≤ s.length := by
  have := splitAtSub?_eq hpat h
  subst this
  have : 1 ≤ pat.length := by
    cases pat with
    | nil => exact absurd rfl hpat
    | cons a l => simp
  simp
  omega

theorem findEndRest_le (s : List Char) : (findEndRest s).length ≤ s.length := by
  have hdw : (s.dropWhile (fun c => !(c = '\n'))).length ≤ s.length :=
    (List.dropWhile_suffix _).length_le
  unfold findEndRest
  cases h : s.dropWhile (fun c => !(c = '\n')) with
  | nil => simp
  | cons a r =>
    rw [h] at hdw
    show r.length ≤ s.length
    simp at hdw
    omega

theorem expectChar_eq {t : Char} {s r : List Char}
    (h : expectChar t s = some r) : s = t :: r := by
  cases s with
  | nil => simp [expectChar] at h
  | cons c s' =>
    unfold expectChar at h
    by_cases hc : c = t
    · simp [hc] at h; subst h; subst hc; rfl
    · simp [hc] at h

theorem parseMembersAt_rest_lt {s content rest : List Char}
    (h : parseMembersAt s = some (content, rest)) :
    rest.length + 9 ≤ s.length := by
  unfold parseMembersAt at h
  by_cases hp : ("members").toList.isPrefixOf s
  · rw [if_pos hp] at h
    have hlen : 7 ≤ s.length := by
      have := (List.isPrefixOf_iff_prefix.mp hp).length_le
      simpa using this
    have hr1 : (( s.drop 7).dropWhile isPySpace).length ≤ s.length - 7 := by
      have h1 : ((s.drop 7).dropWhile isPySpace).length ≤ (s.drop 7).length :=
        (List.dropWhile_suffix _).length_le
      simpa using h1
    cases h1 : expectChar '=' ((s.drop 7).dropWhile isPySpace) with
    | none => rw [h1] at h; simp at h
    | some r2 =>
      rw [h1] at h
      dsimp only at h
      have e1 := expectChar_eq h1
      have hr2 : (r2.dropWhile isPySpace).length ≤ r2.length :=
        (List.dropWhile_suffix _).length_le
      cases h2 : expectChar '[' (r2.dropWhile isPySpace) with
      | none => rw [h2] at h; simp at h
      | some r3 =>
        rw [h2] at h
        dsimp only at h
        have e2 := expectChar_eq h2
        have := splitAtChar?_post_lt h
        have l1 : r2.length + 1 = ((s.drop 7).dropWhile isPySpace).length := by
          rw [e1]; simp
        have l2 : r3.length + 1 = (r2.dropWhile isPySpace).length := by
          rw [e2]; simp
        omega
  · rw [if_neg hp] at h
    simp at h

theorem searchMembersRest_le {s rest : List Char}
    (h : searchMembersRest s = some rest) : rest.length + 9 ≤ s.length := by
  induction s with
  | nil => simp [searchMembersRest] at h
  | cons c r ih =>
    unfold searchMembersRest at h
    cases hp : parseMembersAt (c :: r) with
    | some pr =>
      rw [hp] at h
      obtain ⟨content, rest'⟩ := pr
      simp at h
      subst h
      exact parseMembersAt_rest_lt hp
    | none =>
      rw [hp] at h
      simp at h
      have := ih h
      simp
      omega

theorem scanOurs_rest_le {acc t o : List Char} {th : Option (List Char)}
    {rest : List Char} (h : scanOurs acc t = some (o, th, rest)) :
    rest.length ≤ t.length := by
  induction t generalizing acc with
  | nil => simp [scanOurs] at h
  | cons c r ih =>
    unfold scanOurs at h
    by_cases h1 : sepNl.isPrefixOf (c :: r)
    · rw [if_pos h1] at h
      cases h2 : splitAtSub? endMk7 ((c :: r).drop 8) with
      | none => rw [h2] at h; simp at h
      | some pp =>
        rw [h2] at h
        obtain ⟨th', after⟩ := pp
        simp at h
        obtain ⟨_, _, h3⟩ := h
        subst h3
        have ha : after.length + 1 ≤ ((c :: r).drop 8).length :=
          splitAtSub?_post_le (by simp [endMk7]) h2
        have hb := findEndRest_le after
        have hc : ((c :: r).drop 8).length = (c :: r).length - 8 :=
          List.length_drop 8 (c :: r)
        simp only [List.length_cons] at hc ⊢
        omega
    · rw [if_neg h1] at h
      by_cases h2 : endMk7.isPrefixOf (c :: r)
      · rw [if_pos h2] at h
        simp at h
        obtain ⟨_, _, h3⟩ := h
        subst h3
        have hb := findEndRest_le (r.drop 6)
        have hc : (r.drop 6).length = r.length - 6 := List.length_drop 6 r
        simp only [List.length_cons, List.drop_succ_cons] at hc ⊢
        omega
      · rw [if_neg h2] at h
        have := ih h
        simp
        omega

theorem matchConflictAt_rest_lt {s o : List Char} {th : Option (List Char)}
    {rest : List Char} (h : matchConflictAt s = some (o, th, rest)) :
    rest.length < s.length := by
  unfold matchConflictAt at h
  by_cases hp : startMk7.isPrefixOf s
  · rw [if_pos hp] at h
    have h7 : 7 ≤ s.length := by
      have := (List.isPrefixOf_iff_prefix.mp hp).length_le
      simpa [startMk7] using this
    cases he : expectChar '\n' ((s.drop 7).dropWhile (fun c => !(c = '\n'))) with
    | none => rw [he] at h; simp at h
    | some r' =>
      rw [he] at h
      dsimp only at h
      have e1 := expectChar_eq he
      have h1 : r'.length + 1 =
          ((s.drop 7).dropWhile (fun c => !(c = '\n'))).length := by
        rw [e1]; simp
      have h2 : ((s.drop 7).dropWhile (fun c => !(c = '\n'))).length ≤
          (s.drop 7).length := (List.dropWhile_suffix _).length_le
      have h3 : (s.drop 7).length = s.length - 7 := List.length_drop 7 s
      have h4 := scanOurs_rest_le h
      omega
  · rw [if_neg hp] at h
    simp at h

theorem tryG2_le {v rest : List Char} (h : tryG2 v = some rest) :
    rest.length ≤ v.length := by
  unfold tryG2 at h
  cases h1 : searchMembersRest v with
  | some rest1 =>
    rw [h1] at h
    dsimp only at h
    cases h2 : splitAtSub? endMk7 rest1 with
    | some pp =>
      rw [h2] at h
      obtain ⟨pre, r2⟩ := pp
      dsimp only at h
      simp at h
      subst h
      have ha := searchMembersRest_le h1
      have hb : r2.length + 1 ≤ rest1.length :=
        splitAtSub?_post_le (by simp [endMk7]) h2
      have hc := findEndRest_le r2
      omega
    | none =>
      rw [h2] at h
      dsimp only at h
      split at h
      · simp at h
        subst h
        have ha := findEndRest_le (v.drop 7)
        have hb : (v.drop 7).length = v.length - 7 := List.length_drop 7 v
        omega
      · simp at h
  | none =>
    rw [h1] at h
    dsimp only at h
    split at h
    · simp at h
      subst h
      have ha := findEndRest_le (v.drop 7)
      have hb : (v.drop 7).length = v.length - 7 := List.length_drop 7 v
      omega
    · simp at h

theorem trySeps_le {t rest : List Char} (h : trySeps t = some rest) :
    rest.length ≤ t.length := by
  induction t with
  | nil => simp [trySeps] at h
  | cons c r ih =>
    unfold trySeps at h
    by_cases h1 : sepNl.isPrefixOf (c :: r)
    · rw [if_pos h1] at h
      cases h2 : tryG2 ((c :: r).drop 8) with
      | some rest' =>
        rw [h2] at h
        simp at h
        subst h
        have ha := tryG2_le h2
        have hb : ((c :: r).drop 8).length = (c :: r).length - 8 :=
          List.length_drop 8 (c :: r)
        simp only [List.length_cons] at hb ⊢
        omega
      | none =>
        rw [h2] at h
        have := ih h
        simp only [List.length_cons]
        omega
    · rw [if_neg h1] at h
      have := ih h
      simp only [List.length_cons]
      omega

theorem tryG1_le {p rest : List Char} (h : tryG1 p = some rest) :
    rest.length ≤ p.length := by
  unfold tryG1 at h
  cases h1 : searchMembersRest p with
  | some rest1 =>
    rw [h1] at h
    dsimp only at h
    cases h2 : trySeps rest1 with
    | some rest' =>
      rw [h2] at h
      simp at h
      subst h
      have ha := searchMembersRest_le h1
      have hb := trySeps_le h2
      omega
    | none =>
      rw [h2] at h
      dsimp only at h
      split at h
      · cases h3 : tryG2 (p.drop 8) with
        | some rest' =>
          rw [h3] at h
          simp at h
          subst h
          have ha := tryG2_le h3
          have hb : (p.drop 8).length = p.length - 8 := List.length_drop 8 p
          omega
        | none => rw [h3] at h; simp at h
      · simp at h
  | none =>
    rw [h1] at h
    dsimp only at h
    split at h
    · cases h3 : tryG2 (p.drop 8) with
      | some rest' =>
        rw [h3] at h
        simp at h
        subst h
        have ha := tryG2_le h3
        have hb : (p.drop 8).length = p.length - 8 := List.length_drop 8 p
        omega
      | none => rw [h3] at h; simp at h
    · simp at h

theorem matchMembersConfAt_rest_lt {s rest : List Char}
    (h : matchMembersConfAt s = some rest) : rest.length < s.length := by
  unfold matchMembersConfAt at h
  by_cases hp : startMk7.isPrefixOf s
  · rw [if_pos hp] at h
    have h7 : 7 ≤ s.length := by
      have := (List.isPrefixOf_iff_prefix.mp hp).length_le
      simpa [startMk7] using this
    cases he : expectChar '\n' ((s.drop 7).dropWhile (fun c => !(c = '\n'))) with
    | none => rw [he] at h; simp at h
    | some r' =>
      rw [he] at h
      dsimp only at h
      have e1 := expectChar_eq he
      have h1 : r'.length + 1 =
          ((s.drop 7).dropWhile (fun c => !(c = '\n'))).length := by
        rw [e1]; simp
      have h2 : ((s.drop 7).dropWhile (fun c => !(c = '\n'))).length ≤
          (s.drop 7).length := (List.dropWhile_suffix _).length_le
      have h3 : (s.drop 7).length = s.length - 7 := List.length_drop 7 s
      have h4 := tryG1_le h
      omega
  · rw [if_neg hp] at h
    simp at h

theorem matchGenericAt_rest_lt {s ours rest : List Char}
    (h : matchGenericAt s = some (ours, rest)) : rest.length < s.length := by
  unfold matchGenericAt at h
  by_cases hp : startMk7.isPrefixOf s
  · rw [if_pos hp] at h
    have h7 : 7 ≤ s.length := by
      have := (List.isPrefixOf_iff_prefix.mp hp).length_le
      simpa [startMk7] using this
    cases he : expectChar '\n' ((s.drop 7).dropWhile (fun c => !(c = '\n'))) with
    | none => rw [he] at h; simp at h
    | some r' =>
      rw [he] at h
      dsimp only at h
      have e1 := expectChar_eq he
      have h1 : r'.length + 1 =
          ((s.drop 7).dropWhile (fun c => !(c = '\n'))).length := by
        rw [e1]; simp
      have h2 : ((s.drop 7).dropWhile (fun c => !(c = '\n'))).length ≤
          (s.drop 7).length := (List.dropWhile_suffix _).length_le
      have h3 : (s.drop 7).length = s.length - 7 := List.length_drop 7 s
      cases hs : splitAtSub? sepNl r' with
      | none => rw [hs] at h; simp at h
      | some pp =>
        rw [hs] at h
        obtain ⟨ours', afterSep⟩ := pp
        dsimp only at h
        cases hs2 : splitAtSub? endMk7 afterSep with
        | none => rw [hs2] at h; simp at h
        | some pp2 =>
          rw [hs2] at h
          obtain ⟨pre2, r2⟩ := pp2
          simp at h
          obtain ⟨_, hrest⟩ := h
          subst hrest
          have ha : afterSep.length + 1 ≤ r'.length :=
            splitAtSub?_post_le (by simp [sepNl]) hs
          have hb : r2.length + 1 ≤ afterSep.length :=
            splitAtSub?_post_le (by simp [endMk7]) hs2
          have hc := findEndRest_le r2
          omega
  · rw [if_neg hp] at h
    simp at h

/-! ## Claim theorems: counterexamples and easy claims -/

/-- C1: counterexample.  On `claim1Doc` the single conflict region's
"ours" side carries the member entry `x`, yet the manifest tool
rewrites the file to the empty text: the entry survives in no merged
construct, so completeness fails as stated. -/
theorem claim1_counterexample :
    (conflictScan claim1Doc).1 =
      [((("members = [\"x\"]\n").toList), some [])] ∧
    extract_members_from_block (("members = [\"x\"]\n").toList) =
      [("x").toList] ∧
    (resolve_cargo_conflict true claim1Doc).wrote = some [] := by
  decide

/-- C2: counterexample.  On `claim2Doc`, whose conflict region has no
separator line, the manifest tool writes the document back unchanged,
so the output still contains a line starting with the start marker. -/
theorem claim2_counterexample :
    (resolve_cargo_conflict true claim2Doc).wrote = some claim2Doc ∧
    ("<<<<<<< a").toList ∈
      splitLines ((resolve_cargo_conflict true claim2Doc).wrote.getD []) ∧
    startMk.isPrefixOf (("<<<<<<< a").toList) = true := by
  decide

/-- C3: counterexample.  On `claim3Doc` neither side of the conflict
yields a declaration entry, yet the declaration tool does not keep the
"ours" text: it discards both sides, and `GENERIC` is absent from the
output. -/
theorem claim3_counterexample :
    extract_pub_mods (("GENERIC\n").toList) = [] ∧
    extract_pub_mods (("other\n").toList) = [] ∧
    (resolve_librs_conflict true claim3Doc).wrote = some (("fn x\n").toList) ∧
    hasSub (("GENERIC").toList) (("fn x\n").toList) = false := by
  decide

/-- C4: counterexample.  `claim4Doc` contains no conflict-marker line
(no line starts with any of the three marker prefixes), yet the
manifest tool performs a write and the written text differs from the
input, because marker detection is by substring, not by line. -/
theorem claim4_counterexample :
    ((splitLines claim4Doc).all
      (fun l => !(startMk.isPrefixOf l || sepMk.isPrefixOf l ||
                  endMk.isPrefixOf l))) = true ∧
    (resolve_cargo_conflict true claim4Doc).wrote ≠ none ∧
    (resolve_cargo_conflict true claim4Doc).wrote ≠ some claim4Doc := by
  decide

/-- C5: counterexample.  In `claim5Doc` the second line is a bare
separator line lying before any start marker, hence outside every
conflict region and outside the list construct; the declaration tool
silently deletes it from the output. -/
theorem claim5_counterexample :
    splitLines claim5Doc =
      [("x").toList, sepMk, ("y").toList, ("<<<<<<< a").toList, sepMk,
       ((">>>>>>> b").toList), []] ∧
    (∀ l ∈ (splitLines claim5Doc).take 1, startMk.isPrefixOf l = false) ∧
    (resolve_librs_conflict true claim5Doc).wrote = some (("x\ny\n").toList) ∧
    sepMk ∉ splitLines (("x\ny\n").toList) := by
  decide

/-- C7: counterexample.  `claim7Doc` has markers and zero extractable
entries, yet the declaration tool prints no advisory warning (its
message list is exactly the `Resolved` line) and does not keep the
"ours" text of the region. -/
theorem claim7_counterexample :
    hasSub startMk claim7Doc = true ∧
    (librsState claim7Doc).mods = [] ∧
    (resolve_librs_conflict true claim7Doc).msgs = [Msg.resolvedMsg] ∧
    (resolve_librs_conflict true claim7Doc).wrote = some (['\n']) ∧
    hasSub (("G").toList) ['\n'] = false := by
  decide

/-- C8: counterexample.  On `claim8Doc` the manifest tool rewrites the
file to the text `x`, which ends with no newline at all rather than
exactly one. -/
theorem claim8_counterexample :
    (resolve_cargo_conflict true claim8Doc).wrote = some (("x").toList) ∧
    endsWithNl (("x").toList) = false := by
  decide

/-- C9: counterexample.  `claim9Block` holds two members literals; the
second one (with entry `b`) is itself a well-formed literal, but only
the first literal's entry `a` is extracted: `re.search` finds one
match. -/
theorem claim9_counterexample :
    searchMembers (("members = [\"b\"]").toList) = some (("\"b\"").toList) ∧
    extract_members_from_block claim9Block = [("a").toList] ∧
    ("b").toList ∉ extract_members_from_block claim9Block := by
  decide

/-- C4 (amended): marker detection is by the substring `<<<<<<<` plus
space anywhere in the text, not by marker lines.  When the document
contains no such substring, both tools write nothing and report
success; hence a rerun after a run whose output is free of that
substring changes nothing, and twice equals once on such documents. -/
theorem claim4_amended (content : List Char)
    (h : hasSub startMk content = false) :
    (resolve_cargo_conflict true content).wrote = none ∧
    (resolve_cargo_conflict true content).ok = true ∧
    (resolve_librs_conflict true content).wrote = none ∧
    (resolve_librs_conflict true content).ok = true := by
  unfold resolve_cargo_conflict resolve_librs_conflict
  simp [h]

/-- C4 witness: the amended no-op theorem at a concrete marker-free
document. -/
theorem claim4_witness :
    hasSub startMk (("fn main\n").toList) = false ∧
    (resolve_cargo_conflict true (("fn main\n").toList)).wrote = none ∧
    (resolve_librs_conflict true (("fn main\n").toList)).wrote = none := by
  refine ⟨by decide, (claim4_amended _ (by decide)).1,
    (claim4_amended _ (by decide)).2.2.1⟩

/-- C6: a missing target path means no write, a `File not found`
message, and exit code 1, for both tools; when the path exists the
resolvers always return success (there is no other failure path in
them), so the process exits 0, including the no-marker no-op case. -/
theorem claim6_exit_codes (exists_ : Bool) (content : List Char) :
    (exists_ = false →
      (resolve_cargo_conflict exists_ content).wrote = none ∧
      cargoExit exists_ content = 1 ∧
      (resolve_librs_conflict exists_ content).wrote = none ∧
      librsExit exists_ content = 1 ∧
      (resolve_cargo_conflict exists_ content).msgs = [Msg.notFound] ∧
      (resolve_librs_conflict exists_ content).msgs = [Msg.notFound]) ∧
    (exists_ = true →
      cargoExit exists_ content = 0 ∧ librsExit exists_ content = 0 ∧
      (resolve_cargo_conflict exists_ content).ok = true ∧
      (resolve_librs_conflict exists_ content).ok = true) := by
  constructor
  · intro he; subst he
    simp [resolve_cargo_conflict, resolve_librs_conflict, cargoExit, librsExit]
  · intro he; subst he
    unfold cargoExit librsExit resolve_cargo_conflict resolve_librs_conflict
    by_cases h : hasSub startMk content <;> simp [h]

/-- C6 witness: the exit-code theorem at concrete inputs on both
sides of the existence flag. -/
theorem claim6_witness :
    cargoExit false (("x").toList) = 1 ∧ librsExit false (("x").toList) = 1 ∧
    cargoExit true (("x").toList) = 0 ∧ librsExit true (("x").toList) = 0 := by
  refine ⟨((claim6_exit_codes false (("x").toList)).1 rfl).2.1,
    ((claim6_exit_codes false (("x").toList)).1 rfl).2.2.2.1,
    ((claim6_exit_codes true (("x").toList)).2 rfl).1,
    ((claim6_exit_codes true (("x").toList)).2 rfl).2.1⟩

/-- C7 (amended): with markers present and zero entries extracted, the
manifest tool prints the advisory warning followed by the `Resolved`
line and exits 0; the declaration tool prints no warning at all (only
`Resolved`) and also exits 0.  Neither failure is reported, but the
keep-ours fallback is the manifest tool's only: the declaration tool
drops both sides of every region (see the C3 theorems). -/
theorem claim7_amended (content : List Char)
    (hmk : hasSub startMk content = true)
    (hzc : cargoAllMembers content = [])
    (hzl : (librsState content).mods = []) :
    (resolve_cargo_conflict true content).msgs =
      [Msg.warnNoMembers, Msg.resolvedMsg] ∧
    cargoExit true content = 0 ∧
    (resolve_librs_conflict true content).msgs = [Msg.resolvedMsg] ∧
    librsExit true content = 0 := by
  unfold resolve_cargo_conflict resolve_librs_conflict cargoExit librsExit
  unfold resolve_cargo_conflict resolve_librs_conflict
  simp [hmk, cargoSortedMembers, hzc, librsSortedMods, hzl, isortBy]

/-- C7 witness: the amended warning/exit theorem at `claim7Doc`. -/
theorem claim7_witness :
    (resolve_cargo_conflict true claim7Doc).msgs =
      [Msg.warnNoMembers, Msg.resolvedMsg] ∧
    (resolve_librs_conflict true claim7Doc).msgs = [Msg.resolvedMsg] := by
  refine ⟨(claim7_amended claim7Doc (by decide) (by decide) (by decide)).1,
    (claim7_amended claim7Doc (by decide) (by decide) (by decide)).2.2.1⟩

/-- C8 (amended): the declaration tool guarantees at least one (not
exactly one) trailing newline on every rewrite; the manifest tool
gives no trailing-newline guarantee at all (see the C8
counterexample). -/
theorem claim8_amended (content : List Char)
    (h : hasSub startMk content = true) :
    ∃ out, (resolve_librs_conflict true content).wrote = some out ∧
      endsWithNl out = true := by
  refine ⟨librsFinalText content, ?_, ?_⟩
  · unfold resolve_librs_conflict
    simp [h]
  · unfold librsFinalText endsWithNl
    by_cases he :
        (collapseNl (joinLines (librsResolvedLines content))).getLast? = some '\n'
    · simp [he]
    · simp [he, List.getLast?_concat]

/-- C8 witness: the trailing-newline theorem at `claim8Doc`. -/
theorem claim8_witness :
    ∃ out, (resolve_librs_conflict true claim8Doc).wrote = some out ∧
      endsWithNl out = true :=
  claim8_amended claim8Doc (by decide)

/-! ## Marker-prefix and line-splitting facts -/

theorem isPrefixOf_append_self (p t : List Char) :
    p.isPrefixOf (p ++ t) = true :=
  List.isPrefixOf_iff_prefix.mpr ⟨t, rfl⟩

theorem startMk_nprefix_endLine (b : List Char) :
    startMk.isPrefixOf (endMk ++ b) = false := rfl

theorem sepMk_nprefix_endLine (b : List Char) :
    sepMk.isPrefixOf (endMk ++ b) = false := rfl

theorem startMk_nprefix_sepMk : startMk.isPrefixOf sepMk = false := rfl

theorem startMk_nprefix_nil : startMk.isPrefixOf [] = false := rfl

theorem sepMk_nprefix_nil : sepMk.isPrefixOf [] = false := rfl

theorem endMk_nprefix_nil : endMk.isPrefixOf [] = false := rfl

theorem splitLines_ne_nil (s : List Char) : splitLines s ≠ [] := by
  cases s with
  | nil => simp [splitLines]
  | cons c r =>
    unfold splitLines
    cases splitLines r with
    | nil => simp
    | cons l ls =>
      by_cases hc : c = '\n' <;> simp [hc]

theorem splitLines_cons_nl (r : List Char) :
    splitLines ('\n' :: r) = [] :: splitLines r := by
  cases h : splitLines r with
  | nil => exact absurd h (splitLines_ne_nil r)
  | cons l ls =>
    conv_lhs => unfold splitLines
    rw [h]
    simp

theorem splitLines_cons_char {c : Char} (hc : ¬ c = '\n') (r : List Char) :
    ∃ h t, splitLines r = h :: t ∧ splitLines (c :: r) = (c :: h) :: t := by
  cases h : splitLines r with
  | nil => exact absurd h (splitLines_ne_nil r)
  | cons l ls =>
    refine ⟨l, ls, rfl, ?_⟩
    unfold splitLines
    rw [h]
    simp [hc]

theorem splitLines_nlfree {l : List Char} (h : '\n' ∉ l) : splitLines l = [l] := by
  induction l with
  | nil => rfl
  | cons c r ih =>
    have hc : ¬ c = '\n' := fun hh => h (hh ▸ List.mem_cons_self c r)
    have hr : '\n' ∉ r := fun hh => h (List.mem_cons_of_mem c hh)
    obtain ⟨hd, tl, h1, h2⟩ := splitLines_cons_char hc r
    rw [h2, ih hr] at *
    simp_all

theorem splitLines_append_nl {l : List Char} (t : List Char) (h : '\n' ∉ l) :
    splitLines (l ++ '\n' :: t) = l :: splitLines t := by
  induction l with
  | nil => simpa using splitLines_cons_nl t
  | cons c r ih =>
    have hc : ¬ c = '\n' := fun hh => h (hh ▸ List.mem_cons_self c r)
    have hr : '\n' ∉ r := fun hh => h (List.mem_cons_of_mem c hh)
    obtain ⟨hd, tl, h1, h2⟩ := splitLines_cons_char hc (r ++ '\n' :: t)
    rw [List.cons_append, h2]
    rw [ih hr] at h1
    injection h1 with e1 e2
    rw [e1, e2]

theorem splitLines_joinLines :
    ∀ ls : List (List Char), ls ≠ [] → (∀ l ∈ ls, '\n' ∉ l) →
      splitLines (joinLines ls) = ls
  | [], hne, _ => absurd rfl hne
  | [l], _, h => by
    simpa [joinLines] using splitLines_nlfree (h l (by simp))
  | l :: l2 :: rest, _, h => by
    have h1 : '\n' ∉ l := h l (by simp)
    have h2 : splitLines (joinLines (l2 :: rest)) = l2 :: rest :=
      splitLines_joinLines (l2 :: rest) (by simp)
        (fun x hx => h x (List.mem_cons_of_mem l hx))
    show splitLines (l ++ '\n' :: joinLines (l2 :: rest)) = l :: l2 :: rest
    rw [splitLines_append_nl _ h1, h2]

theorem splitLines_concat_nl (x : List Char) :
    splitLines (x ++ ['\n']) = splitLines x ++ [[]] := by
  induction x with
  | nil =>
    rw [List.nil_append, splitLines_cons_nl]
    rfl
  | cons c r ih =>
    by_cases hc : c = '\n'
    · subst hc
      rw [List.cons_append, splitLines_cons_nl, splitLines_cons_nl, ih]
      simp
    · obtain ⟨hd2, tl2, h4, h5⟩ := splitLines_cons_char hc r
      obtain ⟨hd, tl, h1, h2⟩ := splitLines_cons_char hc (r ++ ['\n'])
      rw [ih, h4] at h1
      simp at h1
      obtain ⟨e1, e2⟩ := h1
      rw [List.cons_append, h2, h5, ← e1, ← e2]
      simp

theorem mem_splitLines_nlfree {s l : List Char} (h : l ∈ splitLines s) :
    '\n' ∉ l := by
  induction s generalizing l with
  | nil =>
    simp [splitLines] at h
    simp [h]
  | cons c r ih =>
    by_cases hc : c = '\n'
    · subst hc
      rw [splitLines_cons_nl, List.mem_cons] at h
      rcases h with h | h
      · simp [h]
      · exact ih h
    · obtain ⟨hd, tl, h1, h2⟩ := splitLines_cons_char hc r
      rw [h2, List.mem_cons] at h
      rcases h with h | h
      · subst h
        intro hmem
        rw [List.mem_cons] at hmem
        rcases hmem with hmem | hmem
        · exact hc hmem.symm
        · exact ih (h1 ▸ List.mem_cons_self hd tl) hmem
      · exact ih (h1 ▸ List.mem_cons_of_mem hd h)

/-! ## Blank-line collapse facts -/

theorem splitLines_replicate_nl (j : Nat) (t : List Char) :
    splitLines (List.replicate j '\n' ++ t) =
      List.replicate j [] ++ splitLines t := by
  induction j with
  | zero => simp
  | succ n ih =>
    rw [List.replicate_succ, List.cons_append, splitLines_cons_nl, ih]
    simp [List.replicate_succ]

theorem nonBlank_replicate_append (j : Nat) (L : List (List Char)) :
    nonBlank (List.replicate j [] ++ L) = nonBlank L := by
  induction j with
  | zero => simp
  | succ n ih =>
    rw [List.replicate_succ, List.cons_append]
    simpa [nonBlank] using ih

theorem nonBlank_cons_blank (L : List (List Char)) :
    nonBlank ([] :: L) = nonBlank L := by
  simp [nonBlank]

theorem splitLines_head_takeWhile (s : List Char) :
    (splitLines s).head? = some (s.takeWhile (fun c => !(c = '\n'))) := by
  induction s with
  | nil => rfl
  | cons c r ih =>
    by_cases hc : c = '\n'
    · subst hc
      rw [splitLines_cons_nl]
      simp
    · obtain ⟨hd, tl, h1, h2⟩ := splitLines_cons_char hc r
      rw [h2]
      rw [h1] at ih
      simp at ih
      simp [List.takeWhile_cons, hc, ih]

theorem collapseAux_cons_nl (k : Nat) (r : List Char) :
    collapseAux k ('\n' :: r) = collapseAux (k + 1) r := by
  simp [collapseAux]

theorem collapseAux_cons_char {c : Char} (hc : ¬ c = '\n') (k : Nat)
    (r : List Char) :
    collapseAux k (c :: r) =
      List.replicate (min k 2) '\n' ++ c :: collapseAux 0 r := by
  simp only [collapseAux]
  rw [if_neg hc]

theorem collapseAux_takeWhile_pos {k : Nat} (hk : 1 ≤ k) (s : List Char) :
    (collapseAux k s).takeWhile (fun c => !(c = '\n')) = [] := by
  induction s generalizing k with
  | nil =>
    unfold collapseAux
    have h2 : min k 2 = 1 ∨ min k 2 = 2 := by omega
    rcases h2 with h | h <;> rw [h] <;> simp [List.replicate_succ]
  | cons c r ih =>
    by_cases hc : c = '\n'
    · subst hc
      rw [collapseAux_cons_nl]
      exact ih (by omega)
    · rw [collapseAux_cons_char hc]
      have h2 : min k 2 = 1 ∨ min k 2 = 2 := by omega
      rcases h2 with h | h <;> rw [h] <;> simp [List.replicate_succ]

theorem collapseAux_takeWhile_zero (s : List Char) :
    (collapseAux 0 s).takeWhile (fun c => !(c = '\n')) =
      s.takeWhile (fun c => !(c = '\n')) := by
  induction s with
  | nil => rfl
  | cons c r ih =>
    by_cases hc : c = '\n'
    · subst hc
      rw [collapseAux_cons_nl, collapseAux_takeWhile_pos (by omega)]
      simp [List.takeWhile_cons]
    · rw [collapseAux_cons_char hc]
      simp [List.takeWhile_cons, hc, ih]

theorem nonBlank_splitLines_collapseAux (s : List Char) :
    ∀ k : Nat, nonBlank (splitLines (collapseAux k s)) =
      nonBlank (splitLines s) := by
  induction s with
  | nil =>
    intro k
    have h0 : collapseAux k [] = List.replicate (min k 2) '\n' ++ [] := by
      unfold collapseAux
      simp
    rw [h0, splitLines_replicate_nl, nonBlank_replicate_append]
  | cons c r ih =>
    intro k
    by_cases hc : c = '\n'
    · subst hc
      rw [collapseAux_cons_nl, ih (k + 1), splitLines_cons_nl,
        nonBlank_cons_blank]
    · rw [collapseAux_cons_char hc, splitLines_replicate_nl,
        nonBlank_replicate_append]
      obtain ⟨hd, tl, h1, h2⟩ := splitLines_cons_char hc (collapseAux 0 r)
      obtain ⟨hd', tl', h3, h4⟩ := splitLines_cons_char hc r
      have hhd : hd = hd' := by
        have e1 : (splitLines (collapseAux 0 r)).head? =
            some ((collapseAux 0 r).takeWhile (fun c => !(c = '\n'))) :=
          splitLines_head_takeWhile _
        have e2 : (splitLines r).head? =
            some (r.takeWhile (fun c => !(c = '\n'))) :=
          splitLines_head_takeWhile _
        rw [h1] at e1
        rw [h3] at e2
        simp at e1 e2
        rw [e1, e2, collapseAux_takeWhile_zero]
      subst hhd
      have hbase := ih 0
      rw [h1, h3] at hbase
      have htl : List.filter (fun l => !l.isEmpty) tl =
          List.filter (fun l => !l.isEmpty) tl' := by
        by_cases hb : hd.isEmpty
        · have hb' : hd = [] := by
            cases hd with
            | nil => rfl
            | cons a b => simp at hb
          rw [hb'] at hbase
          simpa [nonBlank_cons_blank, nonBlank] using hbase
        · simp only [nonBlank, List.filter_cons] at hbase
          rw [if_pos (by simp [hb])] at hbase
          rw [if_pos (by simp [hb])] at hbase
          exact List.tail_eq_of_cons_eq hbase
      rw [h2, h4]
      simp only [nonBlank, List.filter_cons]
      rw [if_pos (by simp), if_pos (by simp), htl]

/-! ## Set, sort and insertion facts -/

theorem mem_setInsert_iff {x y : List Char} {l : List (List Char)} :
    y ∈ setInsert x l ↔ y = x ∨ y ∈ l := by
  unfold setInsert
  by_cases h : x ∈ l
  · rw [if_pos h]
    constructor
    · exact Or.inr
    · rintro (rfl | hy)
      · exact h
      · exact hy
  · rw [if_neg h]
    simp [or_comm]

theorem mem_setUnionL_iff {y : List Char} {add l : List (List Char)} :
    y ∈ setUnionL l add ↔ y ∈ l ∨ y ∈ add := by
  induction add generalizing l with
  | nil => simp [setUnionL]
  | cons x rest ih =>
    show y ∈ setUnionL (setInsert x l) rest ↔ _
    rw [ih, mem_setInsert_iff]
    simp
    tauto

theorem mem_insSorted_iff {le : List Char → List Char → Bool}
    {x y : List Char} {l : List (List Char)} :
    y ∈ insSorted le x l ↔ y = x ∨ y ∈ l := by
  induction l with
  | nil => simp [insSorted]
  | cons z zs ih =>
    unfold insSorted
    by_cases h : le x z
    · simp [h]
    · simp [h, ih]
      tauto

theorem mem_isortBy_iff {le : List Char → List Char → Bool}
    {y : List Char} {l : List (List Char)} :
    y ∈ isortBy le l ↔ y ∈ l := by
  induction l with
  | nil => simp [isortBy]
  | cons x xs ih =>
    unfold isortBy
    rw [mem_insSorted_iff, ih]
    simp

theorem mem_insertBlockAt_iff {y : List Char} {p : Nat}
    {block ls : List (List Char)} :
    y ∈ insertBlockAt p block ls ↔ y ∈ block ∨ y ∈ ls := by
  unfold insertBlockAt
  simp
  constructor
  · rintro (h | h | h)
    · right
      exact List.mem_of_mem_take h
    · exact Or.inl h
    · right
      exact List.mem_of_mem_drop h
  · rintro (h | h)
    · exact Or.inr (Or.inl h)
    · rcases List.mem_append.mp ((List.take_append_drop p ls).symm ▸ h) with h | h
      · exact Or.inl h
      · exact Or.inr (Or.inr h)

theorem sublist_insertBlockAt (p : Nat) (block ls : List (List Char)) :
    ls.Sublist (insertBlockAt p block ls) := by
  unfold insertBlockAt
  have h1 : (ls.drop p).Sublist (block ++ ls.drop p) :=
    List.sublist_append_right block (ls.drop p)
  have h2 := h1.append_left (ls.take p)
  rw [List.take_append_drop] at h2
  rw [List.append_assoc]
  exact h2

/-! ## Newline-freedom of the loop results -/

theorem pyStrip_subset {c : Char} {l : List Char} (h : c ∈ pyStrip l) :
    c ∈ l := by
  unfold pyStrip at h
  rw [List.mem_reverse] at h
  have h2 := (List.dropWhile_suffix isPySpace).subset h
  rw [List.mem_reverse] at h2
  exact (List.dropWhile_suffix isPySpace).subset h2

theorem takeWhile1_chars {p : Char → Bool} {s t r : List Char}
    (h : takeWhile1 p s = some (t, r)) :
    (∀ c ∈ t, c ∈ s) ∧ ∀ c ∈ r, c ∈ s := by
  unfold takeWhile1 at h
  by_cases he : (s.takeWhile p).isEmpty
  · simp [he] at h
  · simp [he] at h
    obtain ⟨h1, h2⟩ := h
    subst h1
    subst h2
    exact ⟨fun c hc => (List.takeWhile_prefix p).subset hc,
      fun c hc => (List.dropWhile_suffix p).subset hc⟩

theorem parenGrab_chars {s pg r2 : List Char}
    (h : parenGrab s = some (pg, r2)) :
    (∀ c ∈ pg, c = '(' ∨ c = ')' ∨ c ∈ s) ∧ ∀ c ∈ r2, c ∈ s := by
  unfold parenGrab at h
  split at h
  · rename_i t
    cases h1 : takeWhile1 (fun c => !(c = ')')) t with
    | none => rw [h1] at h; simp at h
    | some pr =>
      obtain ⟨inner, rest⟩ := pr
      rw [h1] at h
      dsimp only at h
      obtain ⟨hin, hrest⟩ := takeWhile1_chars h1
      cases rest with
      | nil => simp at h
      | cons c0 rest' =>
        by_cases hc0 : c0 = ')'
        · subst hc0
          simp at h
          obtain ⟨h2, h3⟩ := h
          subst h2
          subst h3
          constructor
          · intro c hc
            simp at hc
            rcases hc with rfl | hc | rfl
            · exact Or.inl rfl
            · exact Or.inr (Or.inr (List.mem_cons_of_mem _ (hin c hc)))
            · exact Or.inr (Or.inl rfl)
          · intro c hc
            exact List.mem_cons_of_mem _ (hrest c (List.mem_cons_of_mem _ hc))
        · exfalso
          revert h
          split
          · rename_i heq
            injection heq with e1 _
            exact fun _ => hc0 e1
          · intro h
            simp at h
  · simp at h
    obtain ⟨h1, h2⟩ := h
    subst h1
    subst h2
    exact ⟨by simp, by simp⟩

theorem pubModMatch_nlfree {s g : List Char} (hs : '\n' ∉ s)
    (h : pubModMatch s = some g) : '\n' ∉ g := by
  unfold pubModMatch at h
  by_cases hp : ("pub").toList.isPrefixOf s
  · rw [if_pos hp] at h
    cases h1 : parenGrab (s.drop 3) with
    | none => rw [h1] at h; simp at h
    | some pr =>
      obtain ⟨pg, r2⟩ := pr
      rw [h1] at h
      dsimp only at h
      obtain ⟨hpg, hr2⟩ := parenGrab_chars h1
      have hdrop : ∀ c ∈ s.drop 3, c ∈ s := fun c hc => List.drop_subset 3 s hc
      cases h2 : takeWhile1 isPySpace r2 with
      | none => rw [h2] at h; simp at h
      | some pr2 =>
        obtain ⟨w1, r3⟩ := pr2
        rw [h2] at h
        dsimp only at h
        obtain ⟨hw1, hr3⟩ := takeWhile1_chars h2
        by_cases hm : ("mod").toList.isPrefixOf r3
        · rw [if_pos hm] at h
          cases h3 : takeWhile1 isPySpace (r3.drop 3) with
          | none => rw [h3] at h; simp at h
          | some pr3 =>
            obtain ⟨w2, r5⟩ := pr3
            rw [h3] at h
            dsimp only at h
            obtain ⟨hw2, hr5⟩ := takeWhile1_chars h3
            cases h4 : takeWhile1 isWordChar r5 with
            | none => rw [h4] at h; simp at h
            | some pr4 =>
              obtain ⟨nm, r6⟩ := pr4
              rw [h4] at h
              dsimp only at h
              obtain ⟨hnm, hr6⟩ := takeWhile1_chars h4
              cases h5 : expectChar ';' (r6.dropWhile isPySpace) with
              | none => rw [h5] at h; simp at h
              | some r7 =>
                rw [h5] at h
                dsimp only at h
                simp only [Option.some.injEq] at h
                subst h
                intro hmem
                simp only [List.mem_append, List.mem_cons] at hmem
                have hs3 : ∀ c ∈ s.drop 3, c ≠ '\n' :=
                  fun c hc he => hs (he ▸ hdrop c hc)
                rcases hmem with ((((((hx | hx) | hx) | hx) | hx) | hx) | hx) | hx
                · revert hx; decide
                · rcases hpg _ hx with he | he | hx2
                  · exact absurd he (by decide)
                  · exact absurd he (by decide)
                  · exact hs3 _ hx2 rfl
                · exact hs3 _ (hr2 _ (hw1 _ hx)) rfl
                · revert hx; decide
                · exact hs3 _ (hr2 _ (hr3 _ ((List.drop_subset 3 r3) (hw2 _ hx)))) rfl
                · exact hs3 _ (hr2 _ (hr3 _ ((List.drop_subset 3 r3) (hr5 _ (hnm _ hx))))) rfl
                · have : '\n' ∈ r6 :=
                    (List.takeWhile_prefix isPySpace).subset hx
                  exact hs3 _ (hr2 _ (hr3 _ ((List.drop_subset 3 r3)
                    (hr5 _ (hr6 _ this))))) rfl
                · simp at hx
        · rw [if_neg hm] at h
          simp at h
  · rw [if_neg hp] at h
    simp at h

theorem extract_pub_mods_nlfree {b m : List Char}
    (h : m ∈ extract_pub_mods b) : '\n' ∉ m := by
  unfold extract_pub_mods at h
  have main : ∀ (ls : List (List Char)) (acc : List (List Char)),
      (∀ x ∈ acc, '\n' ∉ x) → (∀ l ∈ ls, '\n' ∉ l) →
      ∀ x ∈ ls.foldl (fun acc line =>
        match pubModMatch (pyStrip line) with
        | some g => setInsert g acc
        | none => acc) acc, '\n' ∉ x := by
    intro ls
    induction ls with
    | nil => intro acc hacc _ x hx; exact hacc x hx
    | cons l rest ih =>
      intro acc hacc hls x hx
      refine ih _ ?_ (fun y hy => hls y (List.mem_cons_of_mem l hy)) x hx
      intro y hy
      dsimp only at hy
      cases hg : pubModMatch (pyStrip l) with
      | none => rw [hg] at hy; exact hacc y hy
      | some g =>
        rw [hg] at hy
        dsimp only at hy
        rcases mem_setInsert_iff.mp hy with rfl | hy2
        · exact pubModMatch_nlfree
            (fun hc => hls l (List.mem_cons_self l rest) (pyStrip_subset hc)) hg
        · exact hacc y hy2
  exact main (splitLines b) [] (by simp)
    (fun l hl => mem_splitLines_nlfree hl) m h

theorem stepLine_resolved_sub {st : MState} {line l : List Char}
    (h : l ∈ (stepLine st line).resolved) : l ∈ st.resolved ∨ l = line := by
  unfold stepLine at h
  split at h
  · exact Or.inl h
  · split at h
    · exact Or.inl h
    · split at h
      · exact Or.inl h
      · split at h
        · exact Or.inl h
        · dsimp only at h
          split at h
          · exact Or.inl h
          · rcases List.mem_append.mp h with h2 | h2
            · exact Or.inl h2
            · simp at h2
              exact Or.inr h2

theorem stepLine_mods_sub {st : MState} {line m : List Char}
    (hline : '\n' ∉ line)
    (h : m ∈ (stepLine st line).mods) : m ∈ st.mods ∨ '\n' ∉ m := by
  unfold stepLine at h
  split at h
  · exact Or.inl h
  · split at h
    · rcases mem_setUnionL_iff.mp h with h2 | h2
      · exact Or.inl h2
      · exact Or.inr (extract_pub_mods_nlfree h2)
    · split at h
      · rcases mem_setUnionL_iff.mp h with h2 | h2
        · exact Or.inl h2
        · exact Or.inr (extract_pub_mods_nlfree h2)
      · split at h
        · exact Or.inl h
        · dsimp only at h
          split at h
          · rcases mem_setInsert_iff.mp h with rfl | h2
            · exact Or.inr fun hc => hline (pyStrip_subset hc)
            · exact Or.inl h2
          · exact Or.inl h

theorem foldl_stepLine_resolved_sub (ls : List (List Char)) (st : MState) :
    ∀ l ∈ (ls.foldl stepLine st).resolved, l ∈ st.resolved ∨ l ∈ ls := by
  induction ls generalizing st with
  | nil => intro l hl; exact Or.inl hl
  | cons x rest ih =>
    intro l hl
    rcases ih (stepLine st x) l hl with h | h
    · rcases stepLine_resolved_sub h with h2 | h2
      · exact Or.inl h2
      · exact Or.inr (h2 ▸ List.mem_cons_self x rest)
    · exact Or.inr (List.mem_cons_of_mem x h)

theorem foldl_stepLine_mods_sub (ls : List (List Char)) (st : MState)
    (hls : ∀ l ∈ ls, '\n' ∉ l) :
    ∀ m ∈ (ls.foldl stepLine st).mods, m ∈ st.mods ∨ '\n' ∉ m := by
  induction ls generalizing st with
  | nil => intro m hm; exact Or.inl hm
  | cons x rest ih =>
    intro m hm
    rcases ih (stepLine st x)
        (fun l hl => hls l (List.mem_cons_of_mem x hl)) m hm with h | h
    · exact stepLine_mods_sub (hls x (List.mem_cons_self x rest)) h
    · exact Or.inr h

theorem librsResolvedLines_nlfree (content : List Char) :
    ∀ l ∈ librsResolvedLines content, '\n' ∉ l := by
  intro l hl
  have hres : ∀ x ∈ (librsState content).resolved, '\n' ∉ x := by
    intro x hx
    rcases foldl_stepLine_resolved_sub (splitLines content) mInit x hx with h | h
    · simp [mInit] at h
    · exact mem_splitLines_nlfree h
  have hmods : ∀ x ∈ (librsState content).mods, '\n' ∉ x := by
    intro x hx
    rcases foldl_stepLine_mods_sub (splitLines content) mInit
        (fun y hy => mem_splitLines_nlfree hy) x hx with h | h
    · simp [mInit] at h
    · exact h
  unfold librsResolvedLines at hl
  split at hl
  · exact hres l hl
  · split at hl
    · rcases mem_insertBlockAt_iff.mp hl with h | h
      · exact hmods l (mem_isortBy_iff.mp h)
      · exact hres l h
    · rcases mem_insertBlockAt_iff.mp hl with h | h
      · exact hmods l (mem_isortBy_iff.mp h)
      · exact hres l h

/-! ## Output lines of the declaration tool -/

theorem librs_output_nonblank (content : List Char)
    (hmk : hasSub startMk content = true) :
    nonBlank (splitLines ((resolve_librs_conflict true content).wrote.getD [])) =
      nonBlank (librsResolvedLines content) := by
  have hw : (resolve_librs_conflict true content).wrote =
      some (librsFinalText content) := by
    unfold resolve_librs_conflict
    simp [hmk]
  rw [hw]
  show nonBlank (splitLines (librsFinalText content)) = _
  unfold librsFinalText
  have base : nonBlank (splitLines
      (collapseNl (joinLines (librsResolvedLines content)))) =
      nonBlank (librsResolvedLines content) := by
    unfold collapseNl
    rw [nonBlank_splitLines_collapseAux]
    cases hls : librsResolvedLines content with
    | nil => simp [joinLines, splitLines, nonBlank]
    | cons l ls =>
      rw [splitLines_joinLines (l :: ls) (by simp) ?hnl]
      case hnl =>
        intro x hx
        have : x ∈ librsResolvedLines content := hls ▸ hx
        -- lines of the loop are newline-free by construction below
        exact librsResolvedLines_nlfree content x this
  by_cases he : endsWithNl (collapseNl (joinLines (librsResolvedLines content)))
  · rw [if_pos he]
    exact base
  · rw [if_neg he, splitLines_concat_nl]
    rw [show nonBlank (splitLines (collapseNl (joinLines
      (librsResolvedLines content))) ++ [[]]) =
      nonBlank (splitLines (collapseNl (joinLines
        (librsResolvedLines content)))) by simp [nonBlank]]
    exact base

/-! ## Segment-level view of the loop -/

theorem sepMk_prefix_self : sepMk.isPrefixOf sepMk = true := by decide

theorem foldl_stepLine_body (ls : List (List Char)) (st : MState)
    (hc : st.inConflict = true) (hok : ∀ l ∈ ls, lineOk l) :
    ls.foldl stepLine st = { st with sect := st.sect ++ sideText ls } := by
  induction ls generalizing st with
  | nil => simp [sideText]
  | cons l rest ih =>
    have hl := hok l (List.mem_cons_self l rest)
    obtain ⟨_, h1, h2, h3⟩ := hl
    show rest.foldl stepLine (stepLine st l) = _
    have hstep : stepLine st l = { st with sect := st.sect ++ l ++ ['\n'] } := by
      unfold stepLine
      rw [h1, h2, h3, hc]
      simp
    rw [hstep, ih { st with sect := st.sect ++ l ++ ['\n'] } hc
      (fun x hx => hok x (List.mem_cons_of_mem l hx))]
    simp [sideText, List.append_assoc]

theorem stepLine_sep (st : MState) :
    stepLine st sepMk =
      { st with mods := setUnionL st.mods (extract_pub_mods st.sect),
                sect := [] } := by
  unfold stepLine
  rw [startMk_nprefix_sepMk, sepMk_prefix_self]
  simp

theorem stepLine_end (st : MState) (b : List Char) :
    stepLine st (endMk ++ b) =
      { st with mods := setUnionL st.mods (extract_pub_mods st.sect),
                inConflict := false, sect := [],
                insPt := some (st.insPt.getD st.resolved.length) } := by
  unfold stepLine
  rw [startMk_nprefix_endLine, sepMk_nprefix_endLine, isPrefixOf_append_self]
  simp

theorem stepLine_start (st : MState) (a : List Char) :
    stepLine st (startMk ++ a) =
      { st with inConflict := true, sect := [] } := by
  unfold stepLine
  rw [isPrefixOf_append_self]
  simp

theorem foldl_stepLine_conf (st : MState) (a : List Char)
    (ours theirs : List (List Char)) (b : List Char)
    (hok : segOk (.conf a ours theirs b)) :
    (renderSeg (.conf a ours theirs b)).foldl stepLine st =
      stepSeg st (.conf a ours theirs b) := by
  obtain ⟨hna, hnb, hours, htheirs⟩ := hok
  show ((startMk ++ a) :: (ours ++ [sepMk] ++ theirs ++ [endMk ++ b])).foldl
      stepLine st = _
  rw [List.foldl_cons, stepLine_start]
  rw [show ours ++ [sepMk] ++ theirs ++ [endMk ++ b] =
    ours ++ (sepMk :: (theirs ++ [endMk ++ b])) by simp]
  rw [List.foldl_append, foldl_stepLine_body ours _ rfl hours]
  rw [List.foldl_cons, stepLine_sep]
  rw [List.foldl_append, foldl_stepLine_body theirs _ rfl htheirs]
  rw [show [endMk ++ b] = (endMk ++ b) :: [] from rfl]
  rw [List.foldl_cons, stepLine_end, List.foldl_nil]
  unfold stepSeg
  simp

theorem foldl_stepLine_out (st : MState) (l : List Char)
    (hst : st.inConflict = false) (hok : lineOk l) :
    (renderSeg (.out l)).foldl stepLine st = stepSeg st (.out l) := by
  obtain ⟨_, h1, h2, h3⟩ := hok
  show stepLine st l = _
  unfold stepLine stepSeg
  rw [h1, h2, h3, hst]
  simp

theorem stepSeg_inConflict (st : MState) (sg : LSeg)
    (h : st.inConflict = false) : (stepSeg st sg).inConflict = false := by
  cases sg with
  | out l =>
    unfold stepSeg
    by_cases hm : (pubModMatch (pyStrip l)).isSome <;> simp [hm, h]
  | conf a ours theirs b => rfl

theorem foldl_docLines_eq (segs : List LSeg) (st : MState)
    (hok : ∀ sg ∈ segs, segOk sg) (hst : st.inConflict = false) :
    (docLines segs).foldl stepLine st = segs.foldl stepSeg st := by
  induction segs generalizing st with
  | nil => rfl
  | cons sg rest ih =>
    have hdoc : docLines (sg :: rest) = renderSeg sg ++ docLines rest := by
      simp [docLines]
    rw [hdoc, List.foldl_append]
    have hsg : (renderSeg sg).foldl stepLine st = stepSeg st sg := by
      cases sg with
      | out l =>
        exact foldl_stepLine_out st l hst (hok _ (List.mem_cons_self _ _))
      | conf a ours theirs b =>
        exact foldl_stepLine_conf st a ours theirs b
          (hok _ (List.mem_cons_self _ _))
    rw [hsg]
    exact ih (stepSeg st sg) (fun x hx => hok x (List.mem_cons_of_mem sg hx))
      (stepSeg_inConflict st sg hst)

theorem renderSeg_ne_nil (sg : LSeg) : renderSeg sg ≠ [] := by
  cases sg <;> simp [renderSeg]

theorem docLines_nlfree (segs : List LSeg) (hok : ∀ sg ∈ segs, segOk sg) :
    ∀ l ∈ docLines segs, '\n' ∉ l := by
  intro l hl
  simp only [docLines, List.mem_flatten, List.mem_map] at hl
  obtain ⟨ls, ⟨sg, hsg, rfl⟩, hmem⟩ := hl
  have := hok sg hsg
  cases sg with
  | out x =>
    simp [renderSeg] at hmem
    subst hmem
    exact this.1
  | conf a ours theirs b =>
    obtain ⟨hna, hnb, hours, htheirs⟩ := this
    simp [renderSeg] at hmem
    rcases hmem with rfl | hmem | rfl | hmem | rfl
    · intro hc
      rcases List.mem_append.mp hc with hc | hc
      · revert hc; decide
      · exact hna hc
    · exact (hours _ hmem).1
    · decide
    · exact (htheirs _ hmem).1
    · intro hc
      rcases List.mem_append.mp hc with hc | hc
      · revert hc; decide
      · exact hnb hc

theorem librsState_structured (segs : List LSeg)
    (hok : ∀ sg ∈ segs, segOk sg) (hne : segs ≠ []) :
    librsState (joinLines (docLines segs)) = segState segs := by
  unfold librsState segState
  have hdoc : splitLines (joinLines (docLines segs)) = docLines segs := by
    apply splitLines_joinLines
    · cases segs with
      | nil => exact absurd rfl hne
      | cons sg rest =>
        have h1 : docLines (sg :: rest) = renderSeg sg ++ docLines rest := by
          simp [docLines]
        rw [h1]
        intro hc
        exact renderSeg_ne_nil sg (List.append_eq_nil.mp hc).1
    · exact docLines_nlfree segs hok
  rw [hdoc]
  exact foldl_docLines_eq segs mInit hok rfl

/-! ## Properties of the segment fold -/

theorem foldl_stepSeg_resolved (segs : List LSeg) (st : MState) :
    (segs.foldl stepSeg st).resolved = st.resolved ++ keptOut segs := by
  induction segs generalizing st with
  | nil => simp [keptOut]
  | cons sg rest ih =>
    show (rest.foldl stepSeg (stepSeg st sg)).resolved = _
    rw [ih]
    cases sg with
    | out l =>
      unfold stepSeg keptOut
      by_cases hm : (pubModMatch (pyStrip l)).isSome
      · simp [hm]
      · simp [hm]
    | conf a ours theirs b =>
      unfold stepSeg keptOut
      simp

theorem stepSeg_mods_mono {st : MState} {sg : LSeg} {m : List Char}
    (h : m ∈ st.mods) : m ∈ (stepSeg st sg).mods := by
  cases sg with
  | out l =>
    unfold stepSeg
    by_cases hm : (pubModMatch (pyStrip l)).isSome
    · simp only [hm, if_pos]
      exact mem_setInsert_iff.mpr (Or.inr h)
    · simp only [hm]
      simpa using h
  | conf a ours theirs b =>
    exact mem_setUnionL_iff.mpr
      (Or.inl (mem_setUnionL_iff.mpr (Or.inl h)))

theorem foldl_stepSeg_mods_mono {segs : List LSeg} {st : MState}
    {m : List Char} (h : m ∈ st.mods) : m ∈ (segs.foldl stepSeg st).mods := by
  induction segs generalizing st with
  | nil => exact h
  | cons sg rest ih => exact ih (stepSeg_mods_mono h)

theorem foldl_stepSeg_mods_conf {segs : List LSeg} {st : MState}
    {a : List Char} {ours theirs : List (List Char)} {b m : List Char}
    (hin : LSeg.conf a ours theirs b ∈ segs)
    (hm : m ∈ extract_pub_mods (sideText ours) ∨
          m ∈ extract_pub_mods (sideText theirs)) :
    m ∈ (segs.foldl stepSeg st).mods := by
  induction segs generalizing st with
  | nil => simp at hin
  | cons sg rest ih =>
    rcases List.mem_cons.mp hin with rfl | hin2
    · show m ∈ (rest.foldl stepSeg
        (stepSeg st (LSeg.conf a ours theirs b))).mods
      refine foldl_stepSeg_mods_mono ?_
      show m ∈ (setUnionL (setUnionL st.mods
        (extract_pub_mods (sideText ours)))
        (extract_pub_mods (sideText theirs)))
      rcases hm with hm | hm
      · exact mem_setUnionL_iff.mpr
          (Or.inl (mem_setUnionL_iff.mpr (Or.inr hm)))
      · exact mem_setUnionL_iff.mpr (Or.inr hm)
    · exact ih hin2

theorem pubModMatch_src {s g : List Char} (h : pubModMatch s = some g) :
    ("pub").toList <+: s := by
  unfold pubModMatch at h
  by_cases hp : ("pub").toList.isPrefixOf s
  · exact List.isPrefixOf_iff_prefix.mp hp
  · rw [if_neg hp] at h
    simp at h

theorem pubModMatch_group {s g : List Char} (h : pubModMatch s = some g) :
    ("pub").toList <+: g := by
  unfold pubModMatch at h
  by_cases hp : ("pub").toList.isPrefixOf s
  · rw [if_pos hp] at h
    cases h1 : parenGrab (s.drop 3) with
    | none => rw [h1] at h; simp at h
    | some pr =>
      obtain ⟨pg, r2⟩ := pr
      rw [h1] at h
      dsimp only at h
      cases h2 : takeWhile1 isPySpace r2 with
      | none => rw [h2] at h; simp at h
      | some pr2 =>
        obtain ⟨w1, r3⟩ := pr2
        rw [h2] at h
        dsimp only at h
        by_cases hm : ("mod").toList.isPrefixOf r3
        · rw [if_pos hm] at h
          cases h3 : takeWhile1 isPySpace (r3.drop 3) with
          | none => rw [h3] at h; simp at h
          | some pr3 =>
            obtain ⟨w2, r5⟩ := pr3
            rw [h3] at h
            dsimp only at h
            cases h4 : takeWhile1 isWordChar r5 with
            | none => rw [h4] at h; simp at h
            | some pr4 =>
              obtain ⟨nm, r6⟩ := pr4
              rw [h4] at h
              dsimp only at h
              cases h5 : expectChar ';' (r6.dropWhile isPySpace) with
              | none => rw [h5] at h; simp at h
              | some r7 =>
                rw [h5] at h
                simp only [Option.some.injEq] at h
                subst h
                refine ⟨pg ++ w1 ++ ("mod").toList ++ w2 ++ nm ++
                  r6.takeWhile isPySpace ++ [';'], ?_⟩
                simp [List.append_assoc]
        · rw [if_neg hm] at h
          simp at h
  · rw [if_neg hp] at h
    simp at h

theorem pub_prefix_no_marker {m : List Char} (h : ("pub").toList <+: m) :
    startMk.isPrefixOf m = false ∧ sepMk.isPrefixOf m = false ∧
      endMk.isPrefixOf m = false ∧ m ≠ [] := by
  obtain ⟨t, ht⟩ := h
  subst ht
  exact ⟨rfl, rfl, rfl, by simp⟩

theorem extract_pub_mods_pub {b m : List Char}
    (h : m ∈ extract_pub_mods b) : ("pub").toList <+: m := by
  unfold extract_pub_mods at h
  have main : ∀ (ls : List (List Char)) (acc : List (List Char)),
      (∀ x ∈ acc, ("pub").toList <+: x) →
      ∀ x ∈ ls.foldl (fun acc line =>
        match pubModMatch (pyStrip line) with
        | some g => setInsert g acc
        | none => acc) acc, ("pub").toList <+: x := by
    intro ls
    induction ls with
    | nil => intro acc hacc x hx; exact hacc x hx
    | cons l rest ih =>
      intro acc hacc x hx
      refine ih _ ?_ x hx
      intro y hy
      dsimp only at hy
      cases hg : pubModMatch (pyStrip l) with
      | none => rw [hg] at hy; exact hacc y hy
      | some g =>
        rw [hg] at hy
        dsimp only at hy
        rcases mem_setInsert_iff.mp hy with rfl | hy2
        · exact pubModMatch_group hg
        · exact hacc y hy2
  exact main (splitLines b) [] (by simp) m h

theorem foldl_stepSeg_mods_src {segs : List LSeg} {st : MState} :
    ∀ m ∈ (segs.foldl stepSeg st).mods,
      m ∈ st.mods ∨ ("pub").toList <+: m := by
  induction segs generalizing st with
  | nil => intro m hm; exact Or.inl hm
  | cons sg rest ih =>
    intro m hm
    rcases ih m hm with h | h
    · cases sg with
      | out l =>
        unfold stepSeg at h
        dsimp only at h
        by_cases hmm : (pubModMatch (pyStrip l)).isSome
        · rw [if_pos hmm] at h
          rcases mem_setInsert_iff.mp h with rfl | h2
          · right
            obtain ⟨g, hg⟩ := Option.isSome_iff_exists.mp hmm
            exact pubModMatch_src hg
          · exact Or.inl h2
        · rw [if_neg hmm] at h
          exact Or.inl h
      | conf a ours theirs b =>
        rcases mem_setUnionL_iff.mp h with h2 | h2
        · rcases mem_setUnionL_iff.mp h2 with h3 | h3
          · exact Or.inl h3
          · exact Or.inr (extract_pub_mods_pub h3)
        · exact Or.inr (extract_pub_mods_pub h2)
    · exact Or.inr h

theorem keptOut_ok {segs : List LSeg} (hok : ∀ sg ∈ segs, segOk sg) :
    ∀ l ∈ keptOut segs, lineOk l := by
  induction segs with
  | nil => simp [keptOut]
  | cons sg rest ih =>
    intro l hl
    have ihr := ih (fun x hx => hok x (List.mem_cons_of_mem sg hx))
    cases sg with
    | out x =>
      unfold keptOut at hl
      dsimp only [List.foldr_cons] at hl
      by_cases hm : (pubModMatch (pyStrip x)).isSome
      · rw [if_pos hm] at hl
        exact ihr l hl
      · rw [if_neg hm] at hl
        rcases List.mem_cons.mp hl with rfl | hl2
        · exact hok _ (List.mem_cons_self _ _)
        · exact ihr l hl2
    | conf a ours theirs b =>
      unfold keptOut at hl
      dsimp only [List.foldr_cons] at hl
      exact ihr l hl

theorem keptOut_sub_outLines {segs : List LSeg} :
    ∀ l ∈ keptOut segs, l ∈ outLines segs := by
  induction segs with
  | nil => simp [keptOut]
  | cons sg rest ih =>
    intro l hl
    cases sg with
    | out x =>
      unfold keptOut at hl
      dsimp only [List.foldr_cons] at hl
      unfold outLines
      dsimp only [List.foldr_cons]
      by_cases hm : (pubModMatch (pyStrip x)).isSome
      · rw [if_pos hm] at hl
        exact List.mem_cons_of_mem x (ih l hl)
      · rw [if_neg hm] at hl
        rcases List.mem_cons.mp hl with rfl | hl2
        · exact List.mem_cons_self _ _
        · exact List.mem_cons_of_mem x (ih l hl2)
    | conf a ours theirs b =>
      unfold keptOut at hl
      dsimp only [List.foldr_cons] at hl
      unfold outLines
      dsimp only [List.foldr_cons]
      exact ih l hl

/-! ## Membership in the inserted line list -/

theorem librsResolvedLines_mem {content l : List Char}
    (h : l ∈ librsResolvedLines content) :
    l ∈ (librsState content).resolved ∨ l ∈ (librsState content).mods := by
  unfold librsResolvedLines at h
  split at h
  · exact Or.inl h
  · split at h
    · rcases mem_insertBlockAt_iff.mp h with h2 | h2
      · exact Or.inr (mem_isortBy_iff.mp h2)
      · exact Or.inl h2
    · rcases mem_insertBlockAt_iff.mp h with h2 | h2
      · exact Or.inr (mem_isortBy_iff.mp h2)
      · exact Or.inl h2

theorem librsResolvedLines_mem_mods {content m : List Char}
    (hm : m ∈ librsSortedMods content) :
    m ∈ librsResolvedLines content := by
  unfold librsResolvedLines
  have hne : ¬ (librsSortedMods content).isEmpty = true := by
    cases h : librsSortedMods content with
    | nil => rw [h] at hm; simp at hm
    | cons x xs => simp
  rw [if_neg hne]
  split
  · exact mem_insertBlockAt_iff.mpr (Or.inl hm)
  · exact mem_insertBlockAt_iff.mpr (Or.inl hm)

theorem segState_resolved (segs : List LSeg) :
    (segState segs).resolved = keptOut segs := by
  unfold segState
  simpa [mInit] using foldl_stepSeg_resolved segs mInit

/-! ## The four structured-document claims -/

/-- C1 (amended, declaration tool): every entry present on either side
of any conflict region of a well-formed structured document appears
with identical text as a line of the written output.  (The manifest
tool can drop every entry when no anchor survives conflict removal:
see the C1 counterexample.) -/
theorem claim1_amended (segs : List LSeg) (a : List Char)
    (ours theirs : List (List Char)) (b m : List Char)
    (hok : ∀ sg ∈ segs, segOk sg)
    (hin : LSeg.conf a ours theirs b ∈ segs)
    (hmk : hasSub startMk (joinLines (docLines segs)) = true)
    (hm : m ∈ extract_pub_mods (sideText ours) ∨
          m ∈ extract_pub_mods (sideText theirs)) :
    m ∈ splitLines
      ((resolve_librs_conflict true (joinLines (docLines segs))).wrote.getD []) := by
  have hne : segs ≠ [] := by rintro rfl; simp at hin
  have hstate := librsState_structured segs hok hne
  have hmods : m ∈ (librsState (joinLines (docLines segs))).mods := by
    rw [hstate]
    exact foldl_stepSeg_mods_conf hin hm
  have hpub : ("pub").toList <+: m := by
    rcases hm with h | h
    · exact extract_pub_mods_pub h
    · exact extract_pub_mods_pub h
  have hmne : m ≠ [] := (pub_prefix_no_marker hpub).2.2.2
  have hsorted : m ∈ librsSortedMods (joinLines (docLines segs)) := by
    unfold librsSortedMods
    exact mem_isortBy_iff.mpr hmods
  have hres : m ∈ librsResolvedLines (joinLines (docLines segs)) :=
    librsResolvedLines_mem_mods hsorted
  have hnb : m ∈ nonBlank (librsResolvedLines (joinLines (docLines segs))) := by
    unfold nonBlank
    refine List.mem_filter.mpr ⟨hres, ?_⟩
    simpa using hmne
  rw [← librs_output_nonblank _ hmk] at hnb
  exact (List.mem_filter.mp hnb).1

/-- C1 witness: the completeness theorem at a concrete structured
document whose conflict carries `pub mod zeta;` on the "ours" side. -/
theorem claim1_amended_witness :
    ("pub mod zeta;").toList ∈ splitLines
      ((resolve_librs_conflict true
        (joinLines (docLines claim1Segs))).wrote.getD []) :=
  claim1_amended claim1Segs (("x").toList) [("pub mod zeta;").toList]
    [("pub mod alpha;").toList] (("y").toList) (("pub mod zeta;").toList)
    (by decide) (by decide) (by decide) (by decide)

/-- C2 (amended, declaration tool): on well-formed structured documents
no line of the written output begins with any of the three
conflict-marker prefixes.  (The manifest tool can leave markers when a
region lacks its separator: see the C2 counterexample.) -/
theorem claim2_amended (segs : List LSeg) (l : List Char)
    (hok : ∀ sg ∈ segs, segOk sg) (hne : segs ≠ [])
    (hmk : hasSub startMk (joinLines (docLines segs)) = true)
    (hl : l ∈ splitLines
      ((resolve_librs_conflict true (joinLines (docLines segs))).wrote.getD [])) :
    startMk.isPrefixOf l = false ∧ sepMk.isPrefixOf l = false ∧
      endMk.isPrefixOf l = false := by
  by_cases hbl : l = []
  · subst hbl
    exact ⟨rfl, rfl, rfl⟩
  · have hnb : l ∈ nonBlank (splitLines
        ((resolve_librs_conflict true (joinLines (docLines segs))).wrote.getD [])) :=
      List.mem_filter.mpr ⟨hl, by simpa using hbl⟩
    rw [librs_output_nonblank _ hmk] at hnb
    have hresolved : l ∈ librsResolvedLines (joinLines (docLines segs)) :=
      (List.mem_filter.mp hnb).1
    rcases librsResolvedLines_mem hresolved with h | h
    · rw [librsState_structured segs hok hne, segState_resolved] at h
      have hko := keptOut_ok hok l h
      exact ⟨hko.2.1, hko.2.2.1, hko.2.2.2⟩
    · rw [librsState_structured segs hok hne] at h
      rcases foldl_stepSeg_mods_src l h with h2 | h2
      · simp [mInit] at h2
      · have hp := pub_prefix_no_marker h2
        exact ⟨hp.1, hp.2.1, hp.2.2.1⟩

/-- C2 witness: the marker-elimination theorem at a concrete structured
document, applied to one line of its output. -/
theorem claim2_amended_witness :
    startMk.isPrefixOf (("use a;").toList) = false ∧
      sepMk.isPrefixOf (("use a;").toList) = false ∧
      endMk.isPrefixOf (("use a;").toList) = false :=
  claim2_amended claim2Segs (("use a;").toList)
    (by decide) (by decide) (by decide) (by decide)

/-- C3 (amended): the declaration tool resolves every conflict region,
with or without extractable entries, by discarding both the "ours" and
"theirs" texts together with the markers: every line of its output is
blank, an outside line of the document, or a merged declaration.  The
generic keep-ours fallback exists only in the manifest tool. -/
theorem claim3_amended (segs : List LSeg) (l : List Char)
    (hok : ∀ sg ∈ segs, segOk sg) (hne : segs ≠ [])
    (hmk : hasSub startMk (joinLines (docLines segs)) = true)
    (hl : l ∈ splitLines
      ((resolve_librs_conflict true (joinLines (docLines segs))).wrote.getD [])) :
    l = [] ∨ l ∈ outLines segs ∨
      l ∈ librsSortedMods (joinLines (docLines segs)) := by
  by_cases hbl : l = []
  · exact Or.inl hbl
  · right
    have hnb : l ∈ nonBlank (splitLines
        ((resolve_librs_conflict true (joinLines (docLines segs))).wrote.getD [])) :=
      List.mem_filter.mpr ⟨hl, by simpa using hbl⟩
    rw [librs_output_nonblank _ hmk] at hnb
    have hresolved : l ∈ librsResolvedLines (joinLines (docLines segs)) :=
      (List.mem_filter.mp hnb).1
    rcases librsResolvedLines_mem hresolved with h | h
    · rw [librsState_structured segs hok hne, segState_resolved] at h
      exact Or.inl (keptOut_sub_outLines l h)
    · right
      unfold librsSortedMods
      exact mem_isortBy_iff.mpr h

/-- C3 witness: the both-sides-discarded theorem at a concrete
structured document with a generic conflict, applied to one output
line. -/
theorem claim3_amended_witness :
    ("use a;").toList = [] ∨
      ("use a;").toList ∈ outLines claim3Segs ∨
      ("use a;").toList ∈
        librsSortedMods (joinLines (docLines claim3Segs)) :=
  claim3_amended claim3Segs (("use a;").toList)
    (by decide) (by decide) (by decide) (by decide)

/-- C5 (amended): the non-blank outside lines that are not themselves
declaration-construct lines appear unmodified and in their original
relative order in the output of the declaration tool (blank-line runs
may be collapsed, marker-resembling or declaration lines are moved or
removed: see the C5 counterexample). -/
theorem claim5_amended (segs : List LSeg)
    (hok : ∀ sg ∈ segs, segOk sg) (hne : segs ≠ [])
    (hmk : hasSub startMk (joinLines (docLines segs)) = true) :
    (nonBlank (keptOut segs)).Sublist
      (splitLines
        ((resolve_librs_conflict true (joinLines (docLines segs))).wrote.getD [])) := by
  have hresolved : (librsState (joinLines (docLines segs))).resolved =
      keptOut segs := by
    rw [librsState_structured segs hok hne, segState_resolved]
  have h1 : (keptOut segs).Sublist
      (librsResolvedLines (joinLines (docLines segs))) := by
    unfold librsResolvedLines
    split
    · rw [hresolved]
    · split
      · rw [hresolved]
        exact sublist_insertBlockAt _ _ _
      · rw [hresolved]
        exact sublist_insertBlockAt _ _ _
  have h2 := h1.filter (fun l => !l.isEmpty)
  rw [show List.filter (fun l => !l.isEmpty)
      (librsResolvedLines (joinLines (docLines segs))) =
    nonBlank (librsResolvedLines (joinLines (docLines segs))) from rfl] at h2
  rw [← librs_output_nonblank _ hmk] at h2
  exact h2.trans (List.filter_sublist _)

/-- C5 witness: the order-preservation theorem at a concrete structured
document. -/
theorem claim5_amended_witness :
    (nonBlank (keptOut claim5Segs)).Sublist
      (splitLines
        ((resolve_librs_conflict true
          (joinLines (docLines claim5Segs))).wrote.getD [])) :=
  claim5_amended claim5Segs (by decide) (by decide) (by decide)

/-- C9 (amended): when a block holds more than one members literal,
`extract_members_from_block` returns exactly the entries of the first
literal; the later literal, itself perfectly well formed (second
conjunct), contributes nothing, because `re.search` produces a single
match. -/
theorem claim9_amended (a b : Char) (ha1 : ¬ a = ']') (ha2 : ¬ a = '"')
    (hb1 : ¬ b = ']') (hb2 : ¬ b = '"') :
    extract_members_from_block (twoLits a b) = [[a]] ∧
    extract_members_from_block (oneLit b) = [[b]] := by
  have e1 : twoLits a b =
      'm' :: 'e' :: 'm' :: 'b' :: 'e' :: 'r' :: 's' :: ' ' :: '=' :: ' ' ::
      '[' :: '"' :: a :: '"' :: ']' :: '\n' ::
      'm' :: 'e' :: 'm' :: 'b' :: 'e' :: 'r' :: 's' :: ' ' :: '=' :: ' ' ::
      '[' :: '"' :: b :: '"' :: ']' :: [] := rfl
  have e2 : oneLit b =
      'm' :: 'e' :: 'm' :: 'b' :: 'e' :: 'r' :: 's' :: ' ' :: '=' :: ' ' ::
      '[' :: '"' :: b :: '"' :: ']' :: [] := rfl
  constructor
  · rw [e1]
    simp [extract_members_from_block, searchMembers, parseMembersAt,
      expectChar, splitAtChar?, quotedGo, setInsert, isPySpace,
      List.isPrefixOf, ha1, ha2]
  · rw [e2]
    simp [extract_members_from_block, searchMembers, parseMembersAt,
      expectChar, splitAtChar?, quotedGo, setInsert, isPySpace,
      List.isPrefixOf, hb1, hb2]

/-- C9 witness: the first-literal-only theorem at concrete entries. -/
theorem claim9_amended_witness :
    extract_members_from_block (twoLits 'a' 'b') = [['a']] ∧
    extract_members_from_block (oneLit 'b') = [['b']] :=
  claim9_amended 'a' 'b' (by decide) (by decide) (by decide) (by decide)

/-- A character outside `plainChars` differs from each scanner-relevant
character, in both orientations. -/
theorem plain_char_facts {c : Char} (h : c ∉ plainChars) :
    (¬ c = '\n') ∧ (¬ '\n' = c) ∧ (¬ c = '=') ∧ (¬ '=' = c) ∧
    (¬ c = '>') ∧ (¬ '>' = c) ∧ (¬ c = '<') ∧ (¬ '<' = c) ∧
    (¬ c = 'm') ∧ (¬ 'm' = c) ∧ (¬ c = '"') ∧ (¬ '"' = c) ∧
    (¬ c = ']') ∧ (¬ ']' = c) := by
  simp [plainChars] at h
  obtain ⟨h1, h2, h3, h4, h5, h6, h7⟩ := h
  exact ⟨h1, fun e => h1 e.symm, h2, fun e => h2 e.symm, h3, fun e => h3 e.symm,
    h4, fun e => h4 e.symm, h5, fun e => h5 e.symm, h6, fun e => h6 e.symm,
    h7, fun e => h7 e.symm⟩

set_option maxHeartbeats 2000000

/-- The conflict scanner finds exactly one region in `doc10` (ours is the
x-literal, theirs is empty) and leaves `c10Clean` as residue. -/
theorem c10_scan (x y z : Char) (hx : x ∉ plainChars) (hy : y ∉ plainChars)
    (hz : z ∉ plainChars) :
    conflictScan (doc10 x y z) = ([(c10Ours x, some [])], c10Clean y z) := by
  have e : doc10 x y z =
      '<' :: '<' :: '<' :: '<' :: '<' :: '<' :: '<' :: ' ' :: 'a' :: '\n' ::
      'm' :: 'e' :: 'm' :: 'b' :: 'e' :: 'r' :: 's' :: ' ' :: '=' :: ' ' ::
      '[' :: '"' :: x :: '"' :: ']' :: '\n' ::
      '=' :: '=' :: '=' :: '=' :: '=' :: '=' :: '=' :: '\n' ::
      '>' :: '>' :: '>' :: '>' :: '>' :: '>' :: '>' :: ' ' :: 'b' :: '\n' ::
      'm' :: 'e' :: 'm' :: 'b' :: 'e' :: 'r' :: 's' :: ' ' :: '=' :: ' ' ::
      '[' :: '"' :: y :: '"' :: ']' :: '\n' ::
      'm' :: 'e' :: 'm' :: 'b' :: 'e' :: 'r' :: 's' :: ' ' :: '=' :: ' ' ::
      '[' :: '"' :: z :: '"' :: ']' :: '\n' :: [] := rfl
  rw [show conflictScan (doc10 x y z) =
    conflictScanF ((doc10 x y z).length + 1) (doc10 x y z) from rfl, e]
  simp +decide [conflictScanF, matchConflictAt, scanOurs, expectChar,
    splitAtSub?, findEndRest, startMk7, endMk7, sepNl, List.isPrefixOf,
    c10Ours, c10Clean, plain_char_facts hx, plain_char_facts hy,
    plain_char_facts hz]

/-- Member collection over `doc10` yields the deduplicated entries x
(from the conflict) then y (first clean-residue literal only). -/
theorem c10_all (x y z : Char) (hx : x ∉ plainChars) (hy : y ∉ plainChars)
    (hz : z ∉ plainChars) (hyx : ¬ y = x) :
    cargoAllMembers (doc10 x y z) = [[x], [y]] := by
  unfold cargoAllMembers
  rw [c10_scan x y z hx hy hz]
  have e1 : c10Ours x =
      'm' :: 'e' :: 'm' :: 'b' :: 'e' :: 'r' :: 's' :: ' ' :: '=' :: ' ' ::
      '[' :: '"' :: x :: '"' :: ']' :: '\n' :: [] := rfl
  have e2 : c10Clean y z =
      'm' :: 'e' :: 'm' :: 'b' :: 'e' :: 'r' :: 's' :: ' ' :: '=' :: ' ' ::
      '[' :: '"' :: y :: '"' :: ']' :: '\n' ::
      'm' :: 'e' :: 'm' :: 'b' :: 'e' :: 'r' :: 's' :: ' ' :: '=' :: ' ' ::
      '[' :: '"' :: z :: '"' :: ']' :: '\n' :: [] := rfl
  rw [e1, e2]
  simp +decide [extract_members_from_block, searchMembers, parseMembersAt,
    expectChar, splitAtChar?, quotedGo, setInsert, setUnionL, isPySpace,
    List.isPrefixOf, plain_char_facts hx, plain_char_facts hy,
    plain_char_facts hz, hyx]

/-- Sorting the collected members of `doc10` keeps the order x, y when
x precedes y. -/
theorem c10_sorted (x y z : Char) (hx : x ∉ plainChars) (hy : y ∉ plainChars)
    (hz : z ∉ plainChars) (hyx : ¬ y = x) (hxy : x.toNat < y.toNat) :
    cargoSortedMembers (doc10 x y z) = [[x], [y]] := by
  unfold cargoSortedMembers
  rw [c10_all x y z hx hy hz hyx]
  simp [isortBy, insSorted, lexLe, hxy]

/-- The members-conflict substitution removes the whole conflict region
of `doc10`, leaving exactly the clean residue. -/
theorem c10_r1 (x y z : Char) (hx : x ∉ plainChars) (hy : y ∉ plainChars)
    (hz : z ∉ plainChars) :
    membersConfSubAll (doc10 x y z) = c10Clean y z := by
  have e : doc10 x y z =
      '<' :: '<' :: '<' :: '<' :: '<' :: '<' :: '<' :: ' ' :: 'a' :: '\n' ::
      'm' :: 'e' :: 'm' :: 'b' :: 'e' :: 'r' :: 's' :: ' ' :: '=' :: ' ' ::
      '[' :: '"' :: x :: '"' :: ']' :: '\n' ::
      '=' :: '=' :: '=' :: '=' :: '=' :: '=' :: '=' :: '\n' ::
      '>' :: '>' :: '>' :: '>' :: '>' :: '>' :: '>' :: ' ' :: 'b' :: '\n' ::
      'm' :: 'e' :: 'm' :: 'b' :: 'e' :: 'r' :: 's' :: ' ' :: '=' :: ' ' ::
      '[' :: '"' :: y :: '"' :: ']' :: '\n' ::
      'm' :: 'e' :: 'm' :: 'b' :: 'e' :: 'r' :: 's' :: ' ' :: '=' :: ' ' ::
      '[' :: '"' :: z :: '"' :: ']' :: '\n' :: [] := rfl
  rw [show membersConfSubAll (doc10 x y z) =
    membersConfSubF ((doc10 x y z).length + 1) (doc10 x y z) from rfl, e]
  simp +decide [membersConfSubF, matchMembersConfAt, tryG1, tryG2, trySeps,
    searchMembersRest, parseMembersAt, expectChar, splitAtChar?, splitAtSub?,
    findEndRest, startMk7, endMk7, sepNl, isPySpace, List.isPrefixOf,
    c10Clean, plain_char_facts hx, plain_char_facts hy, plain_char_facts hz]

/-- The generic-conflict substitution is the identity on the clean
residue: it carries no conflict markers. -/
theorem c10_r2 (y z : Char) (hy : y ∉ plainChars) (hz : z ∉ plainChars) :
    genericSubAll (c10Clean y z) = c10Clean y z := by
  have e : c10Clean y z =
      'm' :: 'e' :: 'm' :: 'b' :: 'e' :: 'r' :: 's' :: ' ' :: '=' :: ' ' ::
      '[' :: '"' :: y :: '"' :: ']' :: '\n' ::
      'm' :: 'e' :: 'm' :: 'b' :: 'e' :: 'r' :: 's' :: ' ' :: '=' :: ' ' ::
      '[' :: '"' :: z :: '"' :: ']' :: '\n' :: [] := rfl
  rw [show genericSubAll (c10Clean y z) =
    genericSubF ((c10Clean y z).length + 1) (c10Clean y z) from rfl, e]
  simp +decide [genericSubF, matchGenericAt, expectChar, splitAtSub?,
    findEndRest, startMk7, endMk7, sepNl, List.isPrefixOf,
    plain_char_facts hy, plain_char_facts hz]

/-- The clean residue contains an opening members literal, so the
replace-existing branch is taken. -/
theorem c10_open (y z : Char) (hy : y ∉ plainChars) (hz : z ∉ plainChars) :
    searchMembersOpen (c10Clean y z) = true := by
  have e : c10Clean y z =
      'm' :: 'e' :: 'm' :: 'b' :: 'e' :: 'r' :: 's' :: ' ' :: '=' :: ' ' ::
      '[' :: '"' :: y :: '"' :: ']' :: '\n' ::
      'm' :: 'e' :: 'm' :: 'b' :: 'e' :: 'r' :: 's' :: ' ' :: '=' :: ' ' ::
      '[' :: '"' :: z :: '"' :: ']' :: '\n' :: [] := rfl
  rw [e]
  simp +decide [searchMembersOpen, parseMembersOpenAt, expectChar,
    isPySpace, List.isPrefixOf]

/-- Substituting every members literal in the clean residue replaces
both occurrences with the same replacement text. -/
theorem c10_r3 (y z : Char) (hy : y ∉ plainChars) (hz : z ∉ plainChars)
    (repl : List Char) :
    membersSubAll repl (c10Clean y z) =
      repl ++ '\n' :: repl ++ ['\n'] := by
  have e : c10Clean y z =
      'm' :: 'e' :: 'm' :: 'b' :: 'e' :: 'r' :: 's' :: ' ' :: '=' :: ' ' ::
      '[' :: '"' :: y :: '"' :: ']' :: '\n' ::
      'm' :: 'e' :: 'm' :: 'b' :: 'e' :: 'r' :: 's' :: ' ' :: '=' :: ' ' ::
      '[' :: '"' :: z :: '"' :: ']' :: '\n' :: [] := rfl
  rw [show membersSubAll repl (c10Clean y z) =
    membersSubF repl ((c10Clean y z).length + 1) (c10Clean y z) from rfl, e]
  simp +decide [membersSubF, parseMembersAt, expectChar, splitAtChar?,
    isPySpace, List.isPrefixOf, plain_char_facts hy, plain_char_facts hz]

/-- The merged block built from `doc10` is the rendered two-entry block
with entries x then y. -/
theorem c10_block (x y z : Char) (hx : x ∉ plainChars) (hy : y ∉ plainChars)
    (hz : z ∉ plainChars) (hyx : ¬ y = x) (hxy : x.toNat < y.toNat) :
    cargoNewBlock (doc10 x y z) = renderMembersBlock [[x], [y]] := by
  unfold cargoNewBlock
  rw [c10_sorted x y z hx hy hz hyx hxy]
  simp

/-- Blank-line collapsing leaves the doubled rendered block unchanged:
it contains no run of three newlines. -/
theorem c10_collapse (x y : Char) (hx : x ∉ plainChars)
    (hy : y ∉ plainChars) :
    collapseNl (renderMembersBlock [[x], [y]] ++ '\n' ::
        renderMembersBlock [[x], [y]] ++ ['\n']) =
      renderMembersBlock [[x], [y]] ++ '\n' ::
        renderMembersBlock [[x], [y]] ++ ['\n'] := by
  have e : renderMembersBlock [[x], [y]] ++ '\n' ::
      renderMembersBlock [[x], [y]] ++ ['\n'] =
      'm' :: 'e' :: 'm' :: 'b' :: 'e' :: 'r' :: 's' :: ' ' :: '=' :: ' ' ::
      '[' :: '\n' :: ' ' :: ' ' :: ' ' :: ' ' :: '"' :: x :: '"' :: ',' ::
      '\n' :: ' ' :: ' ' :: ' ' :: ' ' :: '"' :: y :: '"' :: ',' :: '\n' ::
      ']' :: '\n' ::
      'm' :: 'e' :: 'm' :: 'b' :: 'e' :: 'r' :: 's' :: ' ' :: '=' :: ' ' ::
      '[' :: '\n' :: ' ' :: ' ' :: ' ' :: ' ' :: '"' :: x :: '"' :: ',' ::
      '\n' :: ' ' :: ' ' :: ' ' :: ' ' :: '"' :: y :: '"' :: ',' :: '\n' ::
      ']' :: '\n' :: [] := rfl
  rw [show collapseNl (renderMembersBlock [[x], [y]] ++ '\n' ::
      renderMembersBlock [[x], [y]] ++ ['\n']) =
    collapseAux 0 (renderMembersBlock [[x], [y]] ++ '\n' ::
      renderMembersBlock [[x], [y]] ++ ['\n']) from rfl, e]
  simp +decide [collapseAux, plain_char_facts hx, plain_char_facts hy]

/-- The document `doc10` contains the start-marker substring, so the
tool does not take the no-op branch. -/
theorem c10_hmk (x y z : Char) : hasSub startMk (doc10 x y z) = true := by
  have e : doc10 x y z = startMk ++
      ('a' :: '\n' :: (c10Ours x ++ ("=======\n>>>>>>> b\n").toList ++
        c10Clean y z)) := rfl
  rw [e]
  cases h : startMk ++ ('a' :: '\n' :: (c10Ours x ++
      ("=======\n>>>>>>> b\n").toList ++ c10Clean y z)) with
  | nil => simp [startMk] at h
  | cons c r =>
    unfold hasSub
    rw [← h, isPrefixOf_append_self]
    simp

/-- C10: on `doc10`, whose clean residue keeps two members literals that
were never part of any conflict region, the manifest tool writes a result
in which every members occurrence is replaced by the same merged sorted
block (entries x and y, rendered identically at both positions). -/
theorem claim10_theorem (x y z : Char) (hx : x ∉ plainChars)
    (hy : y ∉ plainChars) (hz : z ∉ plainChars) (hyx : ¬ y = x)
    (hxy : x.toNat < y.toNat) :
    (resolve_cargo_conflict true (doc10 x y z)).wrote =
      some (renderMembersBlock [[x], [y]] ++ '\n' ::
        renderMembersBlock [[x], [y]] ++ ['\n']) := by
  unfold resolve_cargo_conflict
  rw [c10_hmk x y z]
  simp only [Bool.not_true, Bool.false_eq_true, if_false, reduceIte]
  unfold cargoResolvedText
  rw [c10_r1 x y z hx hy hz, c10_r2 y z hy hz, c10_open y z hy hz,
    if_pos rfl, c10_block x y z hx hy hz hyx hxy, c10_r3 y z hy hz,
    c10_collapse x y hx hy]

/-- C10 witness: the uniform-replacement theorem at concrete entries. -/
theorem claim10_witness :
    (resolve_cargo_conflict true (doc10 'a' 'b' 'c')).wrote =
      some (renderMembersBlock [['a'], ['b']] ++ '\n' ::
        renderMembersBlock [['a'], ['b']] ++ ['\n']) :=
  claim10_theorem 'a' 'b' 'c' (by decide) (by decide) (by decide)
    (by decide) (by decide)
